import Mathlib

/-!
Shallow embedding of the rank-initialization and crossing-minimization ordering
subsystem of the dagre layout library (src/lib/util.js, src/lib/rank/util.js,
src/lib/order/index.js including build-layer-graph), together with proofs about
the embedded definitions.

Modelling conventions:
* JavaScript numbers are modelled exactly: integer-valued data (ranks, orders,
  weights, minlen, the id counter) as `Int`/`Nat`, and the few places where
  non-integer constants occur (`Number.MIN_VALUE` in `maxRank`, geometric
  division in `intersectRect`) as `ℚ`.  `Math.min()`/`Math.max()` of an empty
  argument list return +Infinity or -Infinity; reductions therefore return
  `Option α` with `none` standing for that infinite empty-call result.
* Mutation is modelled by explicit state passing: functions that mutate a graph
  return the new graph; the process-wide `uniqueId` counter is threaded
  explicitly.
-/

/-- Reduction of a JS variadic call `fn(x₁, …, xₙ)` for a binary reducer such as
`Math.min`/`Math.max`: `none` models the value of the empty call (the reducer's
infinity). -/
def jsFold (op : α → α → α) : List α → Option α
  | [] => none
  | x :: xs => some (xs.foldl op x)

/-- `Math.min` over an argument list; `none` models `Math.min()` = +Infinity. -/
def jsMin [LinearOrder α] (l : List α) : Option α := jsFold min l

/-- `Math.max` over an argument list; `none` models `Math.max()` = -Infinity. -/
def jsMax [LinearOrder α] (l : List α) : Option α := jsFold max l

/-- src/lib/util.js: `const CHUNKING_THRESHOLD = 65535`. -/
def CHUNKING_THRESHOLD : Nat := 65535

/-- src/lib/util.js `splitToChunks`: successive slices of size `chunkSize`.
The source always calls this with the positive constant `CHUNKING_THRESHOLD`;
for `chunkSize = 0` the JS loop would not terminate, so that case is mapped to
`[]` here and never used. -/
def splitToChunks (chunkSize : Nat) : List α → List (List α)
  | [] => []
  | x :: xs =>
    if chunkSize = 0 then []
    else (x :: xs).take chunkSize :: splitToChunks chunkSize ((x :: xs).drop chunkSize)
termination_by l => l.length
decreasing_by
  rename_i h
  have h1 : 0 < chunkSize := Nat.pos_of_ne_zero h
  simp only [List.length_drop]
  simp only [List.length_cons]
  omega

/-- src/lib/util.js `applyWithChunking`: apply the reducer directly below the
threshold, otherwise reduce each chunk and then reduce the chunk results.  In
the source the chunk results are plain numbers; since every chunk is nonempty
the reducer never returns its empty-call infinity there, which `filterMap`
reflects (a `none` chunk result is the reducer's neutral infinity and dropping
it is exact for `Math.min`/`Math.max`). -/
def applyWithChunking (fn : List α → Option α) (argsArray : List α) : Option α :=
  if argsArray.length > CHUNKING_THRESHOLD then
    fn ((splitToChunks CHUNKING_THRESHOLD argsArray).filterMap fn)
  else fn argsArray

/-- Merge of two partial reduction results, as the reducer itself would. -/
def optOp (op : α → α → α) : Option α → Option α → Option α
  | none, b => b
  | some a, none => some a
  | some a, some b => some (op a b)

theorem jsFold_cons_eq (op : α → α → α) (hop : ∀ a b c, op (op a b) c = op a (op b c))
    (a : α) (t : List α) : jsFold op (a :: t) = optOp op (some a) (jsFold op t) := by
  cases t with
  | nil => rfl
  | cons y ys =>
    show some (List.foldl op (op a y) ys) = some (op a (List.foldl op y ys))
    congr 1
    induction ys generalizing a y with
    | nil => rfl
    | cons z zs ih =>
      show List.foldl op (op (op a y) z) zs = op a (List.foldl op (op y z) zs)
      rw [hop a y z, ih]

theorem jsFold_append (op : α → α → α) (hop : ∀ a b c, op (op a b) c = op a (op b c))
    (l₁ l₂ : List α) : jsFold op (l₁ ++ l₂) = optOp op (jsFold op l₁) (jsFold op l₂) := by
  induction l₁ with
  | nil =>
    rw [List.nil_append]
    cases jsFold op l₂ <;> rfl
  | cons a t ih =>
    rw [List.cons_append, jsFold_cons_eq op hop, ih, jsFold_cons_eq op hop]
    cases jsFold op t <;> cases jsFold op l₂ <;> simp [optOp, hop]

theorem jsFold_chunks (op : α → α → α) (hop : ∀ a b c, op (op a b) c = op a (op b c))
    (cs : Nat) (hcs : cs ≠ 0) (l : List α) :
    jsFold op ((splitToChunks cs l).filterMap (jsFold op)) = jsFold op l := by
  cases l with
  | nil => simp [splitToChunks]
  | cons x xs =>
    rw [splitToChunks, if_neg hcs]
    obtain ⟨y, ys, hx⟩ : ∃ y ys, (x :: xs).take cs = y :: ys := by
      cases cs with
      | zero => exact absurd rfl hcs
      | succ n => exact ⟨x, xs.take n, rfl⟩
    have hfm : ((x :: xs).take cs :: splitToChunks cs ((x :: xs).drop cs)).filterMap (jsFold op)
        = (ys.foldl op y) :: (splitToChunks cs ((x :: xs).drop cs)).filterMap (jsFold op) := by
      rw [hx]
      rfl
    have hhead : some (ys.foldl op y) = jsFold op ((x :: xs).take cs) := by
      rw [hx]
      rfl
    rw [hfm, jsFold_cons_eq op hop, jsFold_chunks op hop cs hcs ((x :: xs).drop cs), hhead,
      ← jsFold_append op hop, List.take_append_drop]
termination_by l.length
decreasing_by
  have h1 : 0 < cs := Nat.pos_of_ne_zero hcs
  simp only [List.length_drop, List.length_cons]
  omega

theorem applyWithChunking_fold_eq (op : α → α → α)
    (hop : ∀ a b c, op (op a b) c = op a (op b c)) (xs : List α) :
    applyWithChunking (jsFold op) xs = jsFold op xs := by
  unfold applyWithChunking
  split
  · exact jsFold_chunks op hop CHUNKING_THRESHOLD (by decide) xs
  · rfl

theorem applyWithChunking_jsMin {α : Type} [LinearOrder α] (xs : List α) :
    applyWithChunking jsMin xs = jsMin xs :=
  applyWithChunking_fold_eq min min_assoc xs

theorem applyWithChunking_jsMax {α : Type} [LinearOrder α] (xs : List α) :
    applyWithChunking jsMax xs = jsMax xs :=
  applyWithChunking_fold_eq max max_assoc xs

/-- Claim C6: for the reducers `Math.min` and `Math.max` and every finite
sequence `xs` — including sequences longer than the 65535-element chunking
threshold — `applyWithChunking fn xs` equals `fn` applied directly to the whole
sequence. -/
theorem applyWithChunking_min_max_eq {α : Type} [LinearOrder α] (xs : List α) :
    applyWithChunking jsMin xs = jsMin xs ∧ applyWithChunking jsMax xs = jsMax xs :=
  ⟨applyWithChunking_fold_eq min min_assoc xs, applyWithChunking_fold_eq max max_assoc xs⟩

/-- Rectangle for `intersectRect`: center coordinates plus width/height. -/
structure Rect where
  x : ℚ
  y : ℚ
  width : ℚ
  height : ℚ
  deriving DecidableEq

/-- A 2D point. -/
structure Point where
  x : ℚ
  y : ℚ
  deriving DecidableEq

/-- src/lib/util.js `intersectRect`: where a line from `point` toward the
rectangle's center crosses the rectangle's boundary.  `none` models the JS
`throw` when the point coincides with the center.  Rational division is used
for the exact JS quotients; `ℚ` division by zero returns 0 where JS would
produce NaN coordinates (reachable only for zero-size rectangles, where the
source still returns a point rather than raising). -/
def intersectRect (rect : Rect) (point : Point) : Option Point :=
  let x := rect.x
  let y := rect.y
  let dx := point.x - x
  let dy := point.y - y
  let w := rect.width / 2
  let h := rect.height / 2
  if dx = 0 ∧ dy = 0 then
    none
  else if |dy| * w > |dx| * h then
    let h := if dy < 0 then -h else h
    some { x := x + h * dx / dy, y := y + h }
  else
    let w := if dx < 0 then -w else w
    some { x := x + w, y := y + w * dy / dx }

/-- Claim C9: `intersectRect rect point` raises (returns `none`) exactly when
the query point coincides with the rectangle's center; on every other input it
returns a point. -/
theorem intersectRect_none_iff_center (rect : Rect) (point : Point) :
    intersectRect rect point = none ↔ point.x = rect.x ∧ point.y = rect.y := by
  unfold intersectRect
  constructor
  · intro h
    by_cases hc : point.x - rect.x = 0 ∧ point.y - rect.y = 0
    · constructor
      · have := hc.1; linarith
      · have := hc.2; linarith
    · rw [if_neg hc] at h
      split at h <;> simp at h
  · intro h
    rw [if_pos (by constructor <;> [linarith [h.1]; linarith [h.2]])]

/-! ## Graph data model

The graphlib graph as used by the sources: a node list (insertion order),
an association list of node labels, an edge list (parallel edges allowed),
a parent map for compound graphs, and a graph-level label. -/

/-- A node label; absent JS properties are `none` (or the zero default for
`width`/`height`, which no claim inspects).  `borderLeft`/`borderRight` are the
per-rank border-node maps of cluster nodes. -/
structure NodeLabel where
  rank : Option Int := none
  order : Option Int := none
  minRank : Option Int := none
  maxRank : Option Int := none
  dummy : Option String := none
  width : Int := 0
  height : Int := 0
  borderLeft : List (Int × String) := []
  borderRight : List (Int × String) := []
  deriving DecidableEq

/-- An edge `v → w` together with its label (`weight`, `minlen`). -/
structure GEdge where
  v : String
  w : String
  weight : Int := 0
  minlen : Int := 1
  deriving DecidableEq

/-- Graph-level metadata used by the embedded functions. -/
structure GraphLabel where
  nodeRankFactor : Option Int := none
  deriving DecidableEq

/-- The (mutable, in JS) graph value. -/
structure Graph where
  nodes : List String := []
  labels : List (String × NodeLabel) := []
  edges : List GEdge := []
  parents : List (String × String) := []
  graphLabel : GraphLabel := {}
  deriving DecidableEq

/-- Association-list lookup by key. -/
def lookupA (k : String) : List (String × β) → Option β
  | [] => none
  | (k', b) :: t => if k' = k then some b else lookupA k t

/-- Association-list update: replace the first binding of `k`, or append. -/
def setAssoc (k : String) (b : β) : List (String × β) → List (String × β)
  | [] => [(k, b)]
  | (k', b') :: t => if k' = k then (k, b) :: t else (k', b') :: setAssoc k b t

/-- `g.node(v)`: the label of `v`, `none` modelling JS `undefined`. -/
def Graph.node (g : Graph) (v : String) : Option NodeLabel := lookupA v g.labels

/-- `g.hasNode(v)`. -/
def Graph.hasNode (g : Graph) (v : String) : Bool := g.nodes.contains v

/-- `g.setNode(v, label)`: insert the node if new, set its label. -/
def Graph.setNode (g : Graph) (v : String) (l : NodeLabel) : Graph :=
  { g with
    nodes := if g.nodes.contains v then g.nodes else g.nodes ++ [v]
    labels := setAssoc v l g.labels }

/-- In-place label mutation (`g.node(v).foo = bar`): a no-op when the node has
no label, where the JS source would throw on `undefined`. -/
def Graph.updateLabel (g : Graph) (v : String) (f : NodeLabel → NodeLabel) : Graph :=
  match lookupA v g.labels with
  | some l => { g with labels := setAssoc v (f l) g.labels }
  | none => g

/-- `g.outEdges(v)`. -/
def Graph.outEdges (g : Graph) (v : String) : List GEdge := g.edges.filter (fun e => e.v = v)

/-- `g.inEdges(v)`. -/
def Graph.inEdges (g : Graph) (v : String) : List GEdge := g.edges.filter (fun e => e.w = v)

/-- `g.sources()`: nodes with no incoming edge. -/
def Graph.sources (g : Graph) : List String := g.nodes.filter (fun v => g.inEdges v = [])

/-- `g.parent(v)`. -/
def Graph.parentOf (g : Graph) (v : String) : Option String := lookupA v g.parents

/-- The rank of `v` as the JS accessor chain `g.node(v).rank` yields it
(`none` when the node or its rank is absent). -/
def Graph.rankOf (g : Graph) (v : String) : Option Int := (g.node v).bind (fun l => l.rank)

/-! ## maxRank (src/lib/util.js) -/

/-- `Number.MAX_VALUE`, the largest finite double — an exact integer. -/
def NUMBER_MAX_VALUE : Int := (2 ^ 53 - 1) * 2 ^ 971

/-- `Number.MIN_VALUE`, the smallest positive double `2 ^ (-1074)`.  Note it is
a tiny positive number, not negative infinity. -/
def NUMBER_MIN_VALUE : ℚ := 1 / 2 ^ 1074

/-- src/lib/util.js `maxRank`: map every node to its rank, or to
`Number.MIN_VALUE` when the rank is undefined, then reduce with `Math.max`
through `applyWithChunking`.  `none` models the -Infinity result on an empty
graph. -/
def maxRank (g : Graph) : Option ℚ :=
  let nodeRanks := g.nodes.map (fun v =>
    match g.rankOf v with
    | none => NUMBER_MIN_VALUE
    | some r => (r : ℚ))
  applyWithChunking jsMax nodeRanks

theorem jsMax_cons_spec [LinearOrder α] (x : α) (xs : List α) :
    ∃ m, jsMax (x :: xs) = some m ∧ m ∈ x :: xs ∧ ∀ a ∈ x :: xs, a ≤ m := by
  induction xs generalizing x with
  | nil => exact ⟨x, rfl, by simp, by simp⟩
  | cons y ys ih =>
    obtain ⟨m, hm, hmem, hle⟩ := ih (max x y)
    refine ⟨m, ?_, ?_, ?_⟩
    · show some (List.foldl max (max x y) ys) = some m
      exact hm
    · rcases List.mem_cons.mp hmem with h | h
      · rcases max_choice x y with hc | hc
        · rw [hc] at h
          exact List.mem_cons.mpr (Or.inl h)
        · rw [hc] at h
          exact List.mem_cons.mpr (Or.inr (List.mem_cons.mpr (Or.inl h)))
      · exact List.mem_cons.mpr (Or.inr (List.mem_cons.mpr (Or.inr h)))
    · intro a ha
      have hmaxle : max x y ≤ m := hle _ (List.mem_cons_self _ _)
      rcases List.mem_cons.mp ha with h | h
      · exact h ▸ le_trans (le_max_left x y) hmaxle
      · rcases List.mem_cons.mp h with h' | h'
        · exact h' ▸ le_trans (le_max_right x y) hmaxle
        · exact hle _ (List.mem_cons.mpr (Or.inr h'))

/-- Concrete graph for the `maxRank` counterexample: node `a` has rank 0 and
node `b` has no rank. -/
def gC4 : Graph :=
  { nodes := ["a", "b"]
    labels := [("a", { rank := some 0 }), ("b", {})] }

/-- Claim C4 counterexample: with one node of rank 0 (the maximum assigned
rank) and one unranked node, `maxRank` returns `Number.MIN_VALUE` — the
unranked node does influence the result, because `Number.MIN_VALUE` is the
smallest positive double, not negative infinity. -/
theorem maxRank_unranked_counterexample :
    gC4.rankOf "a" = some 0 ∧ gC4.rankOf "b" = none ∧
      maxRank gC4 = some NUMBER_MIN_VALUE ∧ maxRank gC4 ≠ some ((0 : Int) : ℚ) := by
  refine ⟨by decide, by decide, ?_, ?_⟩
  · show applyWithChunking jsMax _ = _
    rw [applyWithChunking_jsMax]
    show some (max ((0 : Int) : ℚ) NUMBER_MIN_VALUE) = some NUMBER_MIN_VALUE
    rw [max_eq_right (by unfold NUMBER_MIN_VALUE; positivity)]
  · show applyWithChunking jsMax _ ≠ _
    rw [applyWithChunking_jsMax]
    show some (max ((0 : Int) : ℚ) NUMBER_MIN_VALUE) ≠ some ((0 : Int) : ℚ)
    rw [max_eq_right (by unfold NUMBER_MIN_VALUE; positivity)]
    intro h
    have h0 : NUMBER_MIN_VALUE = ((0 : Int) : ℚ) := Option.some.inj h
    have : (0 : ℚ) < NUMBER_MIN_VALUE := by unfold NUMBER_MIN_VALUE; positivity
    rw [h0] at this
    exact lt_irrefl _ (by exact_mod_cast this)

/-- Claim C4 (amended): whenever at least one node has an assigned rank `≥ 1`
(in particular for any normalized graph with a positive maximum rank), or the
graph is non-empty with every node ranked, `maxRank` returns the maximum
assigned rank and unranked nodes do not influence the result.  (Outside these
cases the original claim fails: see the counterexample, where an unranked
node pushes the result to `Number.MIN_VALUE` past the assigned ranks `≤ 0`.) -/
theorem maxRank_eq_max_assigned (g : Graph)
    (hpos : (∃ v ∈ g.nodes, ∃ r : Int, g.rankOf v = some r ∧ 1 ≤ r) ∨
      ((∃ v, v ∈ g.nodes) ∧ ∀ v ∈ g.nodes, (g.rankOf v).isSome = true)) :
    ∃ r₀ : Int, maxRank g = some ((r₀ : ℚ)) ∧ (∃ v ∈ g.nodes, g.rankOf v = some r₀) ∧
      ∀ v ∈ g.nodes, ∀ r : Int, g.rankOf v = some r → r ≤ r₀ := by
  obtain ⟨v₁, hv₁⟩ : ∃ v, v ∈ g.nodes := by
    rcases hpos with ⟨v₁, hv₁, _⟩ | ⟨h, _⟩
    · exact ⟨v₁, hv₁⟩
    · exact h
  set f : String → ℚ := fun v =>
    match g.rankOf v with
    | none => NUMBER_MIN_VALUE
    | some r => (r : ℚ) with hf
  have hmr : maxRank g = jsMax (g.nodes.map f) := by
    unfold maxRank
    exact applyWithChunking_jsMax _
  obtain ⟨x, xs, hnodes⟩ : ∃ x xs, g.nodes.map f = x :: xs := by
    cases hn : g.nodes.map f with
    | nil =>
      rw [List.map_eq_nil_iff] at hn
      rw [hn] at hv₁
      exact absurd hv₁ (List.not_mem_nil v₁)
    | cons x xs => exact ⟨x, xs, rfl⟩
  obtain ⟨m, hm, hmem, hle⟩ := jsMax_cons_spec x xs
  rw [← hnodes] at hm hmem hle
  obtain ⟨u, hu, hfu⟩ := List.mem_map.mp hmem
  cases hru : g.rankOf u with
  | none =>
    exfalso
    rcases hpos with ⟨v₂, hv₂, r₁, hr₁, hr₁pos⟩ | ⟨_, hall⟩
    · have hmin_lt_one : NUMBER_MIN_VALUE < 1 := by
        unfold NUMBER_MIN_VALUE
        rw [div_lt_one (by positivity)]
        exact one_lt_pow₀ (by norm_num) (by norm_num)
      have hfv₂ : f v₂ = (r₁ : ℚ) := by simp only [hf, hr₁]
      have hv₂le : (r₁ : ℚ) ≤ m := hfv₂ ▸ hle _ (List.mem_map_of_mem f hv₂)
      have hmv : m = NUMBER_MIN_VALUE := by
        rw [← hfu]
        simp only [hf, hru]
      have h1m : (1 : ℚ) ≤ m := le_trans (by exact_mod_cast hr₁pos) hv₂le
      rw [hmv] at h1m
      exact absurd (lt_of_lt_of_le hmin_lt_one h1m) (lt_irrefl _)
    · have hs := hall u hu
      rw [hru] at hs
      exact absurd hs (by simp)
  | some r =>
    have hmr' : m = (r : ℚ) := by
      rw [← hfu]
      simp only [hf, hru]
    refine ⟨r, by rw [hmr, hm, hmr'], ⟨u, hu, hru⟩, ?_⟩
    intro w hw rw' hrw
    have : f w ≤ m := hle _ (List.mem_map_of_mem f hw)
    rw [hmr'] at this
    have hfw : f w = (rw' : ℚ) := by simp only [hf, hrw]
    rw [hfw] at this
    exact_mod_cast this

/-- Concrete graph for the `maxRank_eq_max_assigned` witness: `a` has rank 3,
`b` is unranked. -/
def gW4 : Graph :=
  { nodes := ["a", "b"]
    labels := [("a", { rank := some 3 }), ("b", {})] }

/-- Concrete graph for the all-ranked branch of the `maxRank_eq_max_assigned`
witness: every node ranked, all assigned ranks `≤ 0`. -/
def gW4b : Graph :=
  { nodes := ["a", "b"]
    labels := [("a", { rank := some 0 }), ("b", { rank := some (-2) })] }

/-- Witness for the amended C4 theorem at concrete graphs, one per branch of
its hypothesis: a rank `≥ 1` next to an unranked node, and a fully ranked
graph whose assigned ranks are all `≤ 0`. -/
theorem maxRank_eq_max_assigned_witness :
    (∃ r₀ : Int, maxRank gW4 = some ((r₀ : ℚ)) ∧
      (∃ v ∈ gW4.nodes, gW4.rankOf v = some r₀) ∧
      ∀ v ∈ gW4.nodes, ∀ r : Int, gW4.rankOf v = some r → r ≤ r₀) ∧
    (∃ r₀ : Int, maxRank gW4b = some ((r₀ : ℚ)) ∧
      (∃ v ∈ gW4b.nodes, gW4b.rankOf v = some r₀) ∧
      ∀ v ∈ gW4b.nodes, ∀ r : Int, gW4b.rankOf v = some r → r ≤ r₀) :=
  ⟨maxRank_eq_max_assigned gW4 (Or.inl ⟨"a", by decide, 3, by decide, by decide⟩),
   maxRank_eq_max_assigned gW4b (Or.inr ⟨⟨"a", by decide⟩, by decide⟩)⟩

/-! ## uniqueId / addDummyNode (src/lib/util.js) -/

/-- Decimal rendering of a natural number, modelling the JS number-to-string
conversion `"" + id` used by `uniqueId`. -/
def numToStr (n : Nat) : String :=
  if n = 0 then "0" else ⟨((Nat.digits 10 n).reverse.map Nat.digitChar)⟩

theorem map_digitChar_inj : ∀ (l₁ l₂ : List Nat), (∀ d ∈ l₁, d < 10) → (∀ d ∈ l₂, d < 10) →
    l₁.map Nat.digitChar = l₂.map Nat.digitChar → l₁ = l₂ := by
  have hchar : ∀ a < 10, ∀ b < 10, Nat.digitChar a = Nat.digitChar b → a = b := by decide
  intro l₁
  induction l₁ with
  | nil =>
    intro l₂ _ _ h
    cases l₂ with
    | nil => rfl
    | cons b t => exact absurd h (by simp)
  | cons a t ih =>
    intro l₂ h₁ h₂ h
    cases l₂ with
    | nil => exact absurd h (by simp)
    | cons b t' =>
      simp only [List.map_cons, List.cons.injEq] at h
      have ha : a = b := hchar a (h₁ a (by simp)) b (h₂ b (by simp)) h.1
      have ht : t = t' := ih t' (fun d hd => h₁ d (by simp [hd])) (fun d hd => h₂ d (by simp [hd])) h.2
      rw [ha, ht]

theorem numToStr_injective : Function.Injective numToStr := by
  have key : ∀ m n : Nat, m ≠ 0 → n ≠ 0 → numToStr m = numToStr n → m = n := by
    intro m n hm hn h
    unfold numToStr at h
    rw [if_neg hm, if_neg hn] at h
    have hdata : ((Nat.digits 10 m).reverse.map Nat.digitChar)
        = ((Nat.digits 10 n).reverse.map Nat.digitChar) := congrArg String.data h
    have hrev : (Nat.digits 10 m).reverse = (Nat.digits 10 n).reverse :=
      map_digitChar_inj _ _
        (fun d hd => Nat.digits_lt_base (by norm_num) (List.mem_reverse.mp hd))
        (fun d hd => Nat.digits_lt_base (by norm_num) (List.mem_reverse.mp hd)) hdata
    have hdig : Nat.digits 10 m = Nat.digits 10 n := List.reverse_injective hrev
    exact Nat.digits_inj_iff.mp hdig
  have hz : ∀ n : Nat, n ≠ 0 → numToStr n ≠ "0" := by
    intro n hn hcontra
    unfold numToStr at hcontra
    rw [if_neg hn] at hcontra
    have hdata : ((Nat.digits 10 n).reverse.map Nat.digitChar) = ['0'] :=
      congrArg String.data hcontra
    have h0 : (Nat.digits 10 n).reverse = [0] :=
      map_digitChar_inj _ [0]
        (fun d hd => Nat.digits_lt_base (by norm_num) (List.mem_reverse.mp hd))
        (by norm_num) hdata
    have : Nat.digits 10 n = [0] := by
      have := congrArg List.reverse h0
      rwa [List.reverse_reverse] at this
    have hofd := Nat.ofDigits_digits 10 n
    rw [this] at hofd
    simp [Nat.ofDigits] at hofd
    exact hn hofd.symm
  intro m n h
  by_cases hm : m = 0 <;> by_cases hn : n = 0
  · rw [hm, hn]
  · subst hm
    exact absurd ((by unfold numToStr; rw [if_pos rfl] : numToStr 0 = "0") ▸ h).symm (hz n hn)
  · subst hn
    exact absurd ((by unfold numToStr; rw [if_pos rfl] : numToStr 0 = "0") ▸ h) (hz m hm)
  · exact key m n hm hn h

/-- src/lib/util.js `uniqueId`: increment the process-wide counter and append it
to the prefix; the counter is threaded explicitly. -/
def uniqueId (idCounter : Nat) (pre : String) : String × Nat :=
  let id := idCounter + 1
  (pre ++ numToStr id, id)

/-- The `while (g.hasNode(v)) v = uniqueId(name)` loop of `addDummyNode`, with
explicit fuel; `none` models the loop not finishing within the fuel (shown
unreachable for fuel above the node count). -/
def dummyLoop (g : Graph) (name : String) : Nat → String → Nat → Option (String × Nat)
  | 0, _, _ => none
  | fuel + 1, v, idCounter =>
    if g.hasNode v then
      let p := uniqueId idCounter name
      dummyLoop g name fuel p.1 p.2
    else some (v, idCounter)

/-- src/lib/util.js `addDummyNode`: probe `name` and then freshly generated ids
until one is not in the graph, tag the attributes with the dummy `type`, insert
the node.  The fallback arm is the (unreachable) fuel-exhaustion case. -/
def addDummyNode (g : Graph) (type : String) (attrs : NodeLabel) (name : String)
    (idCounter : Nat) : String × Graph × Nat :=
  match dummyLoop g name (g.nodes.length + 2) name idCounter with
  | some (v, c') => (v, g.setNode v { attrs with dummy := some type }, c')
  | none => (name, g, idCounter)

theorem dummyLoop_fresh (g : Graph) (name : String) :
    ∀ fuel v idCounter v' c', dummyLoop g name fuel v idCounter = some (v', c') →
      g.hasNode v' = false := by
  intro fuel
  induction fuel with
  | zero => intro v c v' c' h; exact absurd h (by simp [dummyLoop])
  | succ n ih =>
    intro v c v' c' h
    rw [dummyLoop] at h
    by_cases hv : g.hasNode v
    · rw [if_pos hv] at h
      exact ih _ _ _ _ h
    · rw [if_neg hv] at h
      obtain ⟨hv', _⟩ := Prod.mk.injEq .. ▸ Option.some.inj h
      rw [← hv']
      exact Bool.eq_false_iff.mpr hv

theorem dummyLoop_some (g : Graph) (name : String) :
    ∀ fuel idCounter v, 1 ≤ fuel →
      (g.hasNode v = false ∨
        ∃ j, 1 ≤ j ∧ j ≤ fuel - 1 ∧ g.hasNode (name ++ numToStr (idCounter + j)) = false) →
      (dummyLoop g name fuel v idCounter).isSome := by
  intro fuel
  induction fuel with
  | zero => intro c v h; omega
  | succ n ih =>
    intro c v _ hyp
    rw [dummyLoop]
    by_cases hv : g.hasNode v
    · rw [if_pos hv]
      rcases hyp with h | ⟨j, hj1, hj2, hj3⟩
      · rw [hv] at h; exact absurd h (by simp)
      · have hn1 : 1 ≤ n := by omega
        apply ih (c + 1) (name ++ numToStr (c + 1)) hn1
        by_cases hj : j = 1
        · left
          rw [hj] at hj3
          exact hj3
        · right
          refine ⟨j - 1, by omega, by omega, ?_⟩
          have : c + 1 + (j - 1) = c + j := by omega
          rw [this]
          exact hj3
    · rw [if_neg hv]
      rfl

theorem string_append_left_cancel {a b c : String} (h : a ++ b = a ++ c) : b = c := by
  have hd := congrArg String.data h
  rw [String.data_append, String.data_append] at hd
  exact String.ext (List.append_cancel_left hd)

theorem hasNode_iff_mem (g : Graph) (v : String) : g.hasNode v = true ↔ v ∈ g.nodes := by
  simp [Graph.hasNode, List.contains_iff_exists_mem_beq]

/-- Claim C7: for every graph, namePrefix and counter value, `addDummyNode`
terminates (the probing loop succeeds within its fuel) and returns an id that
was not a node of the graph before the call — even when the caller pre-inserted
nodes matching upcoming generator candidates. -/
theorem addDummyNode_fresh (g : Graph) (type : String) (attrs : NodeLabel)
    (name : String) (idCounter : Nat) :
    ∃ v c', dummyLoop g name (g.nodes.length + 2) name idCounter = some (v, c') ∧
      g.hasNode v = false ∧
      addDummyNode g type attrs name idCounter
        = (v, g.setNode v { attrs with dummy := some type }, c') := by
  have hex : g.hasNode name = false ∨
      ∃ j, 1 ≤ j ∧ j ≤ g.nodes.length + 1 ∧
        g.hasNode (name ++ numToStr (idCounter + j)) = false := by
    by_contra hcon
    push_neg at hcon
    obtain ⟨h1, h2⟩ := hcon
    have hall : ∀ k : Fin (g.nodes.length + 1),
        (name ++ numToStr (idCounter + 1 + (k : Nat))) ∈ g.nodes := by
      intro k
      have hk := h2 ((k : Nat) + 1) (by omega) (by omega)
      have : idCounter + ((k : Nat) + 1) = idCounter + 1 + (k : Nat) := by omega
      rw [this] at hk
      exact (hasNode_iff_mem g _).mp (Bool.not_eq_false _ ▸ hk)
    have hinj : Function.Injective
        (fun k : Fin (g.nodes.length + 1) => name ++ numToStr (idCounter + 1 + (k : Nat))) := by
      intro k₁ k₂ h
      have h' := numToStr_injective (string_append_left_cancel h)
      have : (k₁ : Nat) = (k₂ : Nat) := by omega
      exact Fin.ext this
    have hcard : (Finset.univ : Finset (Fin (g.nodes.length + 1))).card ≤ g.nodes.toFinset.card :=
      Finset.card_le_card_of_injOn
        (fun k : Fin (g.nodes.length + 1) => name ++ numToStr (idCounter + 1 + (k : Nat)))
        (fun k _ => List.mem_toFinset.mpr (hall k)) hinj.injOn
    rw [Finset.card_univ, Fintype.card_fin] at hcard
    have hle : g.nodes.toFinset.card ≤ g.nodes.length := g.nodes.toFinset_card_le
    omega
  have hsome := dummyLoop_some g name (g.nodes.length + 2) idCounter name (by omega)
    (by
      rcases hex with h | ⟨j, hj1, hj2, hj3⟩
      · exact Or.inl h
      · exact Or.inr ⟨j, hj1, by omega, hj3⟩)
  obtain ⟨⟨v, c'⟩, hvc⟩ := Option.isSome_iff_exists.mp hsome
  refine ⟨v, c', hvc, dummyLoop_fresh g name _ _ _ _ _ hvc, ?_⟩
  unfold addDummyNode
  rw [hvc]

/-! ## Rank initializer (src/lib/rank/util.js) and normalizeRanks -/

theorem lookupA_setAssoc_self (k : String) (b : β) (m : List (String × β)) :
    lookupA k (setAssoc k b m) = some b := by
  induction m with
  | nil => simp [lookupA, setAssoc]
  | cons p t ih =>
    by_cases h : p.1 = k
    · simp [setAssoc, h, lookupA]
    · simp only [setAssoc, h, if_false]
      simp [lookupA, h, ih]

theorem lookupA_setAssoc_ne (k k' : String) (hk : k' ≠ k) (b : β) (m : List (String × β)) :
    lookupA k' (setAssoc k b m) = lookupA k' m := by
  have hkk : ¬ (k = k') := fun h => hk h.symm
  induction m with
  | nil => simp [setAssoc, lookupA, hkk]
  | cons p t ih =>
    obtain ⟨pk, pb⟩ := p
    by_cases h : pk = k
    · subst h
      simp [setAssoc, lookupA, hkk]
    · simp [setAssoc, h, lookupA, ih]

theorem updateLabel_nodes (g : Graph) (v : String) (f : NodeLabel → NodeLabel) :
    (g.updateLabel v f).nodes = g.nodes := by
  unfold Graph.updateLabel
  split <;> rfl

theorem updateLabel_edges (g : Graph) (v : String) (f : NodeLabel → NodeLabel) :
    (g.updateLabel v f).edges = g.edges := by
  unfold Graph.updateLabel
  split <;> rfl

theorem updateLabel_parents (g : Graph) (v : String) (f : NodeLabel → NodeLabel) :
    (g.updateLabel v f).parents = g.parents := by
  unfold Graph.updateLabel
  split <;> rfl

theorem updateLabel_graphLabel (g : Graph) (v : String) (f : NodeLabel → NodeLabel) :
    (g.updateLabel v f).graphLabel = g.graphLabel := by
  unfold Graph.updateLabel
  split <;> rfl

theorem node_updateLabel_self (g : Graph) (v : String) (f : NodeLabel → NodeLabel) :
    (g.updateLabel v f).node v = (g.node v).map f := by
  unfold Graph.updateLabel Graph.node
  cases h : lookupA v g.labels with
  | none => simp [h]
  | some l => simp [h, lookupA_setAssoc_self]

theorem node_updateLabel_other (g : Graph) (v u : String) (hu : u ≠ v)
    (f : NodeLabel → NodeLabel) : (g.updateLabel v f).node u = g.node u := by
  unfold Graph.updateLabel Graph.node
  cases h : lookupA v g.labels with
  | none => simp
  | some l => simp [lookupA_setAssoc_ne v u hu]

/-- Well-formedness as graphlib maintains it: no duplicate node ids, every
node labelled, every edge endpoint present. -/
structure WFGraph (g : Graph) : Prop where
  nodup : g.nodes.Nodup
  labelled : ∀ v ∈ g.nodes, (g.node v).isSome
  edges_mem : ∀ e ∈ g.edges, e.v ∈ g.nodes ∧ e.w ∈ g.nodes

/-- The recursive memoized `dfs` of `longestPath`, with explicit fuel (the
JS recursion is bounded by the number of nodes; the fuel-0 result is shown
unreachable).  A visited node returns its stored rank — in a DAG that rank is
always already set; the `getD 0` covers only the cyclic-input undefined
behaviour that the source declares a precondition violation.  The rank label
is written exactly when `v` is finished, as in `return (label.rank = rank)`. -/
def lpDfs : Nat → Graph → List String → String → Int × Graph × List String
  | 0, g, visited, _ => (0, g, visited)
  | fuel + 1, g, visited, v =>
    if visited.contains v then
      ((g.rankOf v).getD 0, g, visited)
    else
      let res := (g.outEdges v).foldl
        (fun (acc : List Int × Graph × List String) e =>
          let r := lpDfs fuel acc.2.1 acc.2.2 e.w
          (acc.1 ++ [r.1 - e.minlen], r.2.1, r.2.2))
        ([], g, v :: visited)
      let rank := match applyWithChunking jsMin res.1 with
        | none => 0
        | some r => r
      (rank, res.2.1.updateLabel v (fun l => { l with rank := some rank }), res.2.2)

/-- src/lib/rank/util.js `longestPath`: run the memoized dfs from every
source.  Fuel `g.nodes.length + 1` is enough for every call (proved below). -/
def longestPath (g : Graph) : Graph :=
  ((g.sources).foldl (fun (acc : Graph × List String) s =>
      let r := lpDfs (g.nodes.length + 1) acc.1 acc.2 s
      (r.2.1, r.2.2))
    (g, [])).1

/-- src/lib/rank/util.js `slack`: `rank(head) - rank(tail) - minlen`; `none`
models the NaN result when a rank is undefined. -/
def slack (g : Graph) (e : GEdge) : Option Int :=
  match g.rankOf e.w, g.rankOf e.v with
  | some rw', some rv => some (rw' - rv - e.minlen)
  | _, _ => none

/-- src/lib/util.js `normalizeRanks`: subtract the minimum assigned rank from
every ranked node; unranked nodes contribute `Number.MAX_VALUE` to the
minimum, so they can never set it.  When the graph has no nodes the reduction
is the empty `Math.min()` and the update loop has nothing to visit. -/
def normalizeRanks (g : Graph) : Graph :=
  let nodeRanks := g.nodes.map (fun v =>
    match g.rankOf v with
    | none => NUMBER_MAX_VALUE
    | some r => r)
  match applyWithChunking jsMin nodeRanks with
  | none => g
  | some m =>
    g.nodes.foldl (fun h v =>
      h.updateLabel v (fun l =>
        match l.rank with
        | some r => { l with rank := some (r - m) }
        | none => l)) g

theorem jsMin_cons_spec [LinearOrder α] (x : α) (xs : List α) :
    ∃ m, jsMin (x :: xs) = some m ∧ m ∈ x :: xs ∧ ∀ a ∈ x :: xs, m ≤ a := by
  induction xs generalizing x with
  | nil => exact ⟨x, rfl, by simp, by simp⟩
  | cons y ys ih =>
    obtain ⟨m, hm, hmem, hle⟩ := ih (min x y)
    refine ⟨m, ?_, ?_, ?_⟩
    · show some (List.foldl min (min x y) ys) = some m
      exact hm
    · rcases List.mem_cons.mp hmem with h | h
      · rcases min_choice x y with hc | hc
        · rw [hc] at h
          exact List.mem_cons.mpr (Or.inl h)
        · rw [hc] at h
          exact List.mem_cons.mpr (Or.inr (List.mem_cons.mpr (Or.inl h)))
      · exact List.mem_cons.mpr (Or.inr (List.mem_cons.mpr (Or.inr h)))
    · intro a ha
      have hminle : m ≤ min x y := hle _ (List.mem_cons_self _ _)
      rcases List.mem_cons.mp ha with h | h
      · exact h ▸ le_trans hminle (min_le_left x y)
      · rcases List.mem_cons.mp h with h' | h'
        · exact h' ▸ le_trans hminle (min_le_right x y)
        · exact hle _ (List.mem_cons.mpr (Or.inr h'))

theorem nodup_subset_length {l₁ l₂ : List String} (h1 : l₁.Nodup) (h2 : ∀ x ∈ l₁, x ∈ l₂) :
    l₁.length ≤ l₂.length := by
  calc l₁.length = l₁.dedup.length := by rw [List.Nodup.dedup h1]
  _ = l₁.toFinset.card := by rw [List.card_toFinset]
  _ ≤ l₂.toFinset.card :=
      Finset.card_le_card (fun x hx => List.mem_toFinset.mpr (h2 x (List.mem_toFinset.mp hx)))
  _ ≤ l₂.length := l₂.toFinset_card_le

/-- A node is finished for the dfs of `longestPath`: its rank is written and
every out-edge head is visited, ranked, and satisfies the local longest-path
inequality `rank(u) ≤ rank(w) - minlen`. -/
def Finished (g : Graph) (vis : List String) (u : String) : Prop :=
  ∃ r, g.rankOf u = some r ∧
    ∀ e ∈ g.edges, e.v = u →
      e.w ∈ vis ∧ ∃ rw', g.rankOf e.w = some rw' ∧ r ≤ rw' - e.minlen

theorem rankOf_congr {g g' : Graph} (u : String) (h : g'.node u = g.node u) :
    g'.rankOf u = g.rankOf u := by
  unfold Graph.rankOf
  rw [h]

theorem finished_of_frame {g g' : Graph} {vis : List String} {u : String}
    (hedges : g'.edges = g.edges) (hu : g'.rankOf u = g.rankOf u)
    (hw : ∀ e ∈ g.edges, e.v = u → g'.rankOf e.w = g.rankOf e.w) :
    Finished g vis u → Finished g' vis u := by
  rintro ⟨r, hr, hrest⟩
  refine ⟨r, by rw [hu, hr], ?_⟩
  intro e he hev
  rw [hedges] at he
  obtain ⟨hwv, rw', hrw, hle⟩ := hrest e he hev
  exact ⟨hwv, rw', by rw [hw e he hev, hrw], hle⟩

theorem finished_mono_vis {g : Graph} {vis vis' : List String} {u : String}
    (hsub : ∀ x ∈ vis, x ∈ vis') : Finished g vis u → Finished g vis' u := by
  rintro ⟨r, hr, hrest⟩
  refine ⟨r, hr, ?_⟩
  intro e he hev
  obtain ⟨hwv, rest⟩ := hrest e he hev
  exact ⟨hsub _ hwv, rest⟩

/-- One step of the out-edge fold inside `lpDfs`. -/
def lpStep (fuel : Nat) : (List Int × Graph × List String) → GEdge → (List Int × Graph × List String) :=
  fun acc e =>
    let r := lpDfs fuel acc.2.1 acc.2.2 e.w
    (acc.1 ++ [r.1 - e.minlen], r.2.1, r.2.2)

theorem lpDfs_visited (fuel : Nat) (g : Graph) (vis : List String) (v : String)
    (h : vis.contains v = true) :
    lpDfs (fuel + 1) g vis v = ((g.rankOf v).getD 0, g, vis) := by
  simp only [lpDfs]
  rw [if_pos h]

theorem lpDfs_not_visited (fuel : Nat) (g : Graph) (vis : List String) (v : String)
    (h : vis.contains v = false) :
    lpDfs (fuel + 1) g vis v =
      ((match applyWithChunking jsMin
          (((g.outEdges v).foldl (lpStep fuel) ([], g, v :: vis)).1) with
        | none => 0
        | some r => r),
       ((g.outEdges v).foldl (lpStep fuel) ([], g, v :: vis)).2.1.updateLabel v
         (fun l => { l with rank := some (match applyWithChunking jsMin
             (((g.outEdges v).foldl (lpStep fuel) ([], g, v :: vis)).1) with
           | none => 0
           | some r => r) }),
       ((g.outEdges v).foldl (lpStep fuel) ([], g, v :: vis)).2.2) := by
  simp only [lpDfs]
  rw [if_neg (by rw [h]; exact Bool.false_ne_true)]
  rfl

/-- Preconditions of a `lpDfs` call: well-formed acyclic graph, call target a
node, ghost stack `S` of in-progress ancestors below `v` in topological order,
all visited nodes either on the stack or finished, and enough fuel. -/
structure LPPre (topo : String → Nat) (fuel : Nat) (g : Graph) (vis S : List String)
    (v : String) : Prop where
  wf : WFGraph g
  htopo : ∀ e ∈ g.edges, topo e.v < topo e.w
  hv : v ∈ g.nodes
  stack_vis : ∀ a ∈ S, a ∈ vis
  stack_lt : ∀ a ∈ S, topo a < topo v
  inv : ∀ u ∈ vis, u ∈ S ∨ Finished g vis u
  vis_sub : ∀ u ∈ vis, u ∈ g.nodes
  vis_nodup : vis.Nodup
  fuel_ok : g.nodes.length + 1 ≤ fuel + vis.length

/-- Postcondition of a `lpDfs` call `out = (rank, graph, visited)`. -/
structure LPPost (topo : String → Nat) (g : Graph) (vis S : List String) (v : String)
    (out : Int × Graph × List String) : Prop where
  vis_mono : ∀ x ∈ vis, x ∈ out.2.2
  v_mem : v ∈ out.2.2
  vis_sub : ∀ u ∈ out.2.2, u ∈ g.nodes
  vis_nodup : out.2.2.Nodup
  wf_out : WFGraph out.2.1
  nodes_eq : out.2.1.nodes = g.nodes
  edges_eq : out.2.1.edges = g.edges
  frame : ∀ u, u ∈ vis ∨ u ∉ out.2.2 → out.2.1.node u = g.node u
  inv : ∀ u ∈ out.2.2, u ∈ S ∨ Finished out.2.1 out.2.2 u
  v_fin : Finished out.2.1 out.2.2 v
  v_rank : out.2.1.rankOf v = some out.1
  new_topo : ∀ u ∈ out.2.2, u ∉ vis → topo v ≤ topo u

/-- State invariant of the out-edge fold inside `lpDfs` at node `v`, relating
the current state `(g₁, vis₂)` to the fold's entry state `(g, vis₁)`. -/
structure FoldPre (topo : String → Nat) (fuel : Nat) (g g₁ : Graph)
    (vis₁ vis₂ S : List String) (v : String) : Prop where
  wf : WFGraph g₁
  nodes_eq : g₁.nodes = g.nodes
  edges_eq : g₁.edges = g.edges
  v_mem : v ∈ vis₂
  vis_mono : ∀ x ∈ vis₁, x ∈ vis₂
  vis_sub : ∀ u ∈ vis₂, u ∈ g.nodes
  vis_nodup : vis₂.Nodup
  inv : ∀ u ∈ vis₂, u ∈ v :: S ∨ Finished g₁ vis₂ u
  frame : ∀ u, u ∈ vis₁ ∨ u ∉ vis₂ → g₁.node u = g.node u
  new_topo : ∀ u ∈ vis₂, u ∉ vis₁ → topo v < topo u
  fuel_ok : g.nodes.length + 1 ≤ fuel + vis₂.length

/-- Postcondition of the out-edge fold over `es`, with result
`res = (mins, graph, visited)`. -/
structure FoldPost (topo : String → Nat) (fuel : Nat) (g g₁ : Graph)
    (vis₁ vis₂ S : List String) (v : String) (es : List GEdge) (acc : List Int)
    (res : List Int × Graph × List String) : Prop where
  pre : FoldPre topo fuel g res.2.1 vis₁ res.2.2 S v
  mono2 : ∀ x ∈ vis₂, x ∈ res.2.2
  frame2 : ∀ u, u ∈ vis₂ ∨ u ∉ res.2.2 → res.2.1.node u = g₁.node u
  mins_eq : res.1 = acc ++ es.map (fun e => ((res.2.1.rankOf e.w).getD 0) - e.minlen)
  heads : ∀ e ∈ es, e.w ∈ res.2.2 ∧ ∃ rw', res.2.1.rankOf e.w = some rw'

theorem lpFold_spec (topo : String → Nat) (fuel : Nat)
    (IH : ∀ g' vis' S' v', LPPre topo fuel g' vis' S' v' →
      LPPost topo g' vis' S' v' (lpDfs fuel g' vis' v'))
    (g : Graph) (hwfg : WFGraph g) (htopo : ∀ e ∈ g.edges, topo e.v < topo e.w)
    (S : List String) (v : String) (hS_lt : ∀ a ∈ S, topo a < topo v)
    (vis₁ : List String) (hSvis : ∀ a ∈ S, a ∈ vis₁) :
    ∀ (es : List GEdge), (∀ e ∈ es, e ∈ g.edges ∧ e.v = v) →
      ∀ (acc : List Int) (g₁ : Graph) (vis₂ : List String),
        FoldPre topo fuel g g₁ vis₁ vis₂ S v →
        FoldPost topo fuel g g₁ vis₁ vis₂ S v es acc (es.foldl (lpStep fuel) (acc, g₁, vis₂)) := by
  intro es
  induction es with
  | nil =>
    intro _ acc g₁ vis₂ hpre
    exact ⟨hpre, fun x hx => hx, fun u _ => rfl, (List.append_nil acc).symm,
      fun e he => absurd he (List.not_mem_nil e)⟩
  | cons e es' ihe =>
    intro hes acc g₁ vis₂ hpre
    obtain ⟨heg, hev⟩ := hes e (List.mem_cons_self e es')
    have hvw : topo v < topo e.w := hev ▸ htopo e heg
    have hcall : LPPre topo fuel g₁ vis₂ (v :: S) e.w :=
      { wf := hpre.wf
        htopo := by rw [hpre.edges_eq]; exact htopo
        hv := by rw [hpre.nodes_eq]; exact (hwfg.edges_mem e heg).2
        stack_vis := by
          intro a ha
          rcases List.mem_cons.mp ha with h | h
          · exact h ▸ hpre.v_mem
          · exact hpre.vis_mono a (hSvis a h)
        stack_lt := by
          intro a ha
          rcases List.mem_cons.mp ha with h | h
          · exact h ▸ hvw
          · exact lt_trans (hS_lt a h) hvw
        inv := hpre.inv
        vis_sub := by
          intro u hu
          rw [hpre.nodes_eq]
          exact hpre.vis_sub u hu
        vis_nodup := hpre.vis_nodup
        fuel_ok := by rw [hpre.nodes_eq]; exact hpre.fuel_ok }
    have post := IH g₁ vis₂ (v :: S) e.w hcall
    have hlen : vis₂.length ≤ (lpDfs fuel g₁ vis₂ e.w).2.2.length :=
      nodup_subset_length hpre.vis_nodup post.vis_mono
    have hpre' : FoldPre topo fuel g (lpDfs fuel g₁ vis₂ e.w).2.1 vis₁
        (lpDfs fuel g₁ vis₂ e.w).2.2 S v :=
      { wf := post.wf_out
        nodes_eq := post.nodes_eq.trans hpre.nodes_eq
        edges_eq := post.edges_eq.trans hpre.edges_eq
        v_mem := post.vis_mono v hpre.v_mem
        vis_mono := fun x hx => post.vis_mono x (hpre.vis_mono x hx)
        vis_sub := fun u hu => by
          have h1 := post.vis_sub u hu
          rw [hpre.nodes_eq] at h1
          exact h1
        vis_nodup := post.vis_nodup
        inv := post.inv
        frame := by
          intro u hu
          rcases hu with h | h
          · exact (post.frame u (Or.inl (hpre.vis_mono u h))).trans (hpre.frame u (Or.inl h))
          · have hnv₂ : u ∉ vis₂ := fun hc => h (post.vis_mono u hc)
            exact (post.frame u (Or.inr h)).trans (hpre.frame u (Or.inr hnv₂))
        new_topo := by
          intro u hu hnv₁
          by_cases hvis₂ : u ∈ vis₂
          · exact hpre.new_topo u hvis₂ hnv₁
          · have h1 := post.new_topo u hu hvis₂
            omega
        fuel_ok := by
          have := hpre.fuel_ok
          omega }
    have tailpost := ihe (fun e' he' => hes e' (List.mem_cons_of_mem e he'))
      (acc ++ [(lpDfs fuel g₁ vis₂ e.w).1 - e.minlen])
      (lpDfs fuel g₁ vis₂ e.w).2.1 (lpDfs fuel g₁ vis₂ e.w).2.2 hpre'
    show FoldPost topo fuel g g₁ vis₁ vis₂ S v (e :: es') acc
      (es'.foldl (lpStep fuel)
        (acc ++ [(lpDfs fuel g₁ vis₂ e.w).1 - e.minlen],
          (lpDfs fuel g₁ vis₂ e.w).2.1, (lpDfs fuel g₁ vis₂ e.w).2.2))
    set res := es'.foldl (lpStep fuel)
      (acc ++ [(lpDfs fuel g₁ vis₂ e.w).1 - e.minlen],
        (lpDfs fuel g₁ vis₂ e.w).2.1, (lpDfs fuel g₁ vis₂ e.w).2.2) with hres
    have hstable : res.2.1.node e.w = (lpDfs fuel g₁ vis₂ e.w).2.1.node e.w :=
      tailpost.frame2 e.w (Or.inl post.v_mem)
    have hrank_ew : res.2.1.rankOf e.w = some (lpDfs fuel g₁ vis₂ e.w).1 := by
      rw [rankOf_congr e.w hstable]
      exact post.v_rank
    refine ⟨tailpost.pre, ?_, ?_, ?_, ?_⟩
    · intro x hx
      exact tailpost.mono2 x (post.vis_mono x hx)
    · intro u hu
      rcases hu with h | h
      · exact (tailpost.frame2 u (Or.inl (post.vis_mono u h))).trans (post.frame u (Or.inl h))
      · have hnr : u ∉ (lpDfs fuel g₁ vis₂ e.w).2.2 := fun hc => h (tailpost.mono2 u hc)
        exact (tailpost.frame2 u (Or.inr h)).trans (post.frame u (Or.inr hnr))
    · have hm := tailpost.mins_eq
      rw [hm, List.map_cons]
      have hval : ((res.2.1.rankOf e.w).getD 0) - e.minlen = (lpDfs fuel g₁ vis₂ e.w).1 - e.minlen := by
        rw [hrank_ew]
        rfl
      rw [hval]
      simp
    · intro e' he'
      rcases List.mem_cons.mp he' with h | h
      · subst h
        exact ⟨tailpost.mono2 e'.w post.v_mem, (lpDfs fuel g₁ vis₂ e'.w).1, hrank_ew⟩
      · exact tailpost.heads e' h

theorem lpDfs_spec (topo : String → Nat) :
    ∀ (fuel : Nat) (g : Graph) (vis S : List String) (v : String),
      LPPre topo fuel g vis S v → LPPost topo g vis S v (lpDfs fuel g vis v) := by
  intro fuel
  induction fuel with
  | zero =>
    intro g vis S v pre
    exfalso
    have h1 := nodup_subset_length pre.vis_nodup pre.vis_sub
    have h2 := pre.fuel_ok
    omega
  | succ fuel ih =>
    intro g vis S v pre
    cases hvis : vis.contains v with
    | true =>
      have hvmem : v ∈ vis := by simpa using hvis
      rw [lpDfs_visited fuel g vis v hvis]
      have hvfin : Finished g vis v := by
        rcases pre.inv v hvmem with h | h
        · exact absurd (pre.stack_lt v h) (lt_irrefl _)
        · exact h
      obtain ⟨r, hr, -⟩ := id hvfin
      exact
        { vis_mono := fun x hx => hx
          v_mem := hvmem
          vis_sub := pre.vis_sub
          vis_nodup := pre.vis_nodup
          wf_out := pre.wf
          nodes_eq := rfl
          edges_eq := rfl
          frame := fun u _ => rfl
          inv := pre.inv
          v_fin := hvfin
          v_rank := by rw [hr]; rfl
          new_topo := fun u hu hnu => absurd hu hnu }
    | false =>
      have hvnot : v ∉ vis := by simpa using hvis
      rw [lpDfs_not_visited fuel g vis v hvis]
      have hpre0 : FoldPre topo fuel g g (v :: vis) (v :: vis) S v :=
        { wf := pre.wf
          nodes_eq := rfl
          edges_eq := rfl
          v_mem := List.mem_cons_self v vis
          vis_mono := fun x hx => hx
          vis_sub := by
            intro u hu
            rcases List.mem_cons.mp hu with h | h
            · exact h ▸ pre.hv
            · exact pre.vis_sub u h
          vis_nodup := List.nodup_cons.mpr ⟨hvnot, pre.vis_nodup⟩
          inv := by
            intro u hu
            rcases List.mem_cons.mp hu with h | h
            · exact Or.inl (h ▸ List.mem_cons_self v S)
            · rcases pre.inv u h with h' | h'
              · exact Or.inl (List.mem_cons_of_mem v h')
              · exact Or.inr (finished_mono_vis (fun x hx => List.mem_cons_of_mem v hx) h')
          frame := fun u _ => rfl
          new_topo := fun u hu hnu => absurd hu hnu
          fuel_ok := by
            have := pre.fuel_ok
            simp only [List.length_cons]
            omega }
      have hes : ∀ e ∈ g.outEdges v, e ∈ g.edges ∧ e.v = v := by
        intro e he
        have hf := List.mem_filter.mp he
        exact ⟨hf.1, by simpa using hf.2⟩
      have fold := lpFold_spec topo fuel ih g pre.wf pre.htopo S v pre.stack_lt
        (v :: vis) (fun a ha => List.mem_cons_of_mem v (pre.stack_vis a ha))
        (g.outEdges v) hes [] g (v :: vis) hpre0
      set res := (g.outEdges v).foldl (lpStep fuel) ([], g, v :: vis) with hresdef
      set rank : Int := (match applyWithChunking jsMin res.1 with
        | none => 0
        | some r => r) with hrankdef
      set g₃ := res.2.1.updateLabel v (fun l => { l with rank := some rank }) with hg3def
      have hvres : v ∈ res.2.2 := fold.pre.v_mem
      have hnodelab : ∃ l, res.2.1.node v = some l := by
        have h1 := fold.pre.wf.labelled v (by rw [fold.pre.nodes_eq]; exact pre.hv)
        exact Option.isSome_iff_exists.mp h1
      obtain ⟨lv, hlv⟩ := hnodelab
      have hv_rank : g₃.rankOf v = some rank := by
        unfold Graph.rankOf
        rw [hg3def, node_updateLabel_self, hlv]
        rfl
      have hrank_le : ∀ e ∈ g.edges, e.v = v →
          ∃ rw', res.2.1.rankOf e.w = some rw' ∧ rank ≤ rw' - e.minlen := by
        intro e he hev
        have heout : e ∈ g.outEdges v := by
          unfold Graph.outEdges
          rw [List.mem_filter]
          exact ⟨he, by simpa using hev⟩
        obtain ⟨hw_mem, rw', hrw⟩ := fold.heads e heout
        refine ⟨rw', hrw, ?_⟩
        have hmins := fold.mins_eq
        rw [List.nil_append] at hmins
        have hval_mem : rw' - e.minlen ∈ res.1 := by
          rw [hmins]
          have : ((res.2.1.rankOf e.w).getD 0) - e.minlen = rw' - e.minlen := by
            rw [hrw]
            rfl
          rw [← this]
          exact List.mem_map_of_mem _ heout
        obtain ⟨x, xs, hxs⟩ : ∃ x xs, res.1 = x :: xs := by
          cases hc : res.1 with
          | nil => rw [hc] at hval_mem; exact absurd hval_mem (List.not_mem_nil _)
          | cons x xs => exact ⟨x, xs, rfl⟩
        obtain ⟨m, hm, _, hle⟩ := jsMin_cons_spec x xs
        have hrank_eq : rank = m := by
          rw [hrankdef, hxs, applyWithChunking_jsMin, hm]
        rw [hrank_eq]
        exact hle _ (by rw [← hxs]; exact hval_mem)
      have hv_fin : Finished g₃ res.2.2 v := by
        refine ⟨rank, hv_rank, ?_⟩
        intro e he hev
        have he' : e ∈ g.edges := by
          simp only [hg3def, updateLabel_edges, fold.pre.edges_eq] at he
          exact he
        have hew_ne : e.w ≠ v := by
          intro hc
          have := pre.htopo e he'
          rw [hev, hc] at this
          exact lt_irrefl _ this
        obtain ⟨rw', hrw, hle⟩ := hrank_le e he' hev
        have heout : e ∈ g.outEdges v := by
          unfold Graph.outEdges
          rw [List.mem_filter]
          exact ⟨he', by simpa using hev⟩
        refine ⟨(fold.heads e heout).1, rw', ?_, hle⟩
        rw [rankOf_congr e.w (node_updateLabel_other res.2.1 v e.w hew_ne _)]
        exact hrw
      have hframe3 : ∀ u, u ≠ v → g₃.node u = res.2.1.node u := by
        intro u hu
        rw [hg3def]
        exact node_updateLabel_other res.2.1 v u hu _
      refine
        { vis_mono := fun x hx => fold.pre.vis_mono x (List.mem_cons_of_mem v hx)
          v_mem := hvres
          vis_sub := fold.pre.vis_sub
          vis_nodup := fold.pre.vis_nodup
          wf_out := ?_
          nodes_eq := by rw [hg3def, updateLabel_nodes]; exact fold.pre.nodes_eq
          edges_eq := by rw [hg3def, updateLabel_edges]; exact fold.pre.edges_eq
          frame := ?_
          inv := ?_
          v_fin := hv_fin
          v_rank := hv_rank
          new_topo := ?_ }
      · constructor
        · rw [hg3def, updateLabel_nodes]
          exact fold.pre.wf.nodup
        · intro u hu
          rw [hg3def, updateLabel_nodes] at hu
          by_cases huv : u = v
          · subst huv
            rw [hg3def, node_updateLabel_self, hlv]
            rfl
          · rw [hframe3 u huv]
            exact fold.pre.wf.labelled u hu
        · intro e he
          rw [hg3def, updateLabel_edges] at he
          have h1 := fold.pre.wf.edges_mem e he
          rw [hg3def, updateLabel_nodes]
          exact h1
      · intro u hu
        have huv : u ≠ v := by
          rcases hu with h | h
          · exact fun hc => hvnot (hc ▸ h)
          · exact fun hc => h (hc ▸ hvres)
        rw [hframe3 u huv]
        apply fold.pre.frame u
        rcases hu with h | h
        · exact Or.inl (List.mem_cons_of_mem v h)
        · exact Or.inr h
      · intro u hu
        by_cases huv : u = v
        · exact Or.inr (huv ▸ hv_fin)
        · by_cases huS : u ∈ S
          · exact Or.inl huS
          · have hfin : Finished res.2.1 res.2.2 u := by
              rcases fold.pre.inv u hu with h | h
              · rcases List.mem_cons.mp h with h' | h'
                · exact absurd h' huv
                · exact absurd h' huS
              · exact h
            refine Or.inr (finished_of_frame ?_ ?_ ?_ hfin)
            · rw [hg3def, updateLabel_edges]
            · exact rankOf_congr u (hframe3 u huv)
            · intro e' he' hev'
              have he'' : e' ∈ g.edges := by rw [← fold.pre.edges_eq]; exact he'
              have hew_ne : e'.w ≠ v := by
                intro hc
                have htuv : topo u < topo e'.w := by
                  have h2 := pre.htopo e' he''
                  rw [hev'] at h2
                  exact h2
                rw [hc] at htuv
                by_cases huvis : u ∈ vis
                · rcases pre.inv u huvis with hS | hFin
                  · exact absurd hS huS
                  · obtain ⟨_, _, hrest⟩ := hFin
                    have := (hrest e' he'' hev').1
                    rw [hc] at this
                    exact hvnot this
                · have hnv₁ : u ∉ v :: vis := by
                    intro hc'
                    rcases List.mem_cons.mp hc' with h'' | h''
                    · exact huv h''
                    · exact huvis h''
                  have := fold.pre.new_topo u hu hnv₁
                  omega
              exact rankOf_congr e'.w (hframe3 e'.w hew_ne)
      · intro u hu hnu
        by_cases huv : u = v
        · exact le_of_eq (by rw [huv])
        · have hnv₁ : u ∉ v :: vis := by
            intro hc
            rcases List.mem_cons.mp hc with h | h
            · exact huv h
            · exact hnu h
          exact le_of_lt (fold.pre.new_topo u hu hnv₁)

theorem lpSources_spec (topo : String → Nat) (g : Graph) (hwf : WFGraph g)
    (htopo : ∀ e ∈ g.edges, topo e.v < topo e.w) :
    ∀ (ss : List String), (∀ s ∈ ss, s ∈ g.nodes) →
      ∀ (g₁ : Graph) (vis : List String),
        WFGraph g₁ → g₁.nodes = g.nodes → g₁.edges = g.edges →
        (∀ u ∈ vis, u ∈ g.nodes) → vis.Nodup →
        (∀ u ∈ vis, Finished g₁ vis u) →
        (WFGraph (ss.foldl (fun (acc : Graph × List String) s =>
            ((lpDfs (g.nodes.length + 1) acc.1 acc.2 s).2.1,
             (lpDfs (g.nodes.length + 1) acc.1 acc.2 s).2.2)) (g₁, vis)).1 ∧
         (ss.foldl (fun (acc : Graph × List String) s =>
            ((lpDfs (g.nodes.length + 1) acc.1 acc.2 s).2.1,
             (lpDfs (g.nodes.length + 1) acc.1 acc.2 s).2.2)) (g₁, vis)).1.nodes = g.nodes ∧
         (ss.foldl (fun (acc : Graph × List String) s =>
            ((lpDfs (g.nodes.length + 1) acc.1 acc.2 s).2.1,
             (lpDfs (g.nodes.length + 1) acc.1 acc.2 s).2.2)) (g₁, vis)).1.edges = g.edges ∧
         (∀ u ∈ (ss.foldl (fun (acc : Graph × List String) s =>
            ((lpDfs (g.nodes.length + 1) acc.1 acc.2 s).2.1,
             (lpDfs (g.nodes.length + 1) acc.1 acc.2 s).2.2)) (g₁, vis)).2, u ∈ g.nodes) ∧
         (ss.foldl (fun (acc : Graph × List String) s =>
            ((lpDfs (g.nodes.length + 1) acc.1 acc.2 s).2.1,
             (lpDfs (g.nodes.length + 1) acc.1 acc.2 s).2.2)) (g₁, vis)).2.Nodup ∧
         (∀ u ∈ (ss.foldl (fun (acc : Graph × List String) s =>
            ((lpDfs (g.nodes.length + 1) acc.1 acc.2 s).2.1,
             (lpDfs (g.nodes.length + 1) acc.1 acc.2 s).2.2)) (g₁, vis)).2,
            Finished (ss.foldl (fun (acc : Graph × List String) s =>
              ((lpDfs (g.nodes.length + 1) acc.1 acc.2 s).2.1,
               (lpDfs (g.nodes.length + 1) acc.1 acc.2 s).2.2)) (g₁, vis)).1
              (ss.foldl (fun (acc : Graph × List String) s =>
                ((lpDfs (g.nodes.length + 1) acc.1 acc.2 s).2.1,
                 (lpDfs (g.nodes.length + 1) acc.1 acc.2 s).2.2)) (g₁, vis)).2 u) ∧
         (∀ s ∈ ss, s ∈ (ss.foldl (fun (acc : Graph × List String) s =>
            ((lpDfs (g.nodes.length + 1) acc.1 acc.2 s).2.1,
             (lpDfs (g.nodes.length + 1) acc.1 acc.2 s).2.2)) (g₁, vis)).2) ∧
         (∀ x ∈ vis, x ∈ (ss.foldl (fun (acc : Graph × List String) s =>
            ((lpDfs (g.nodes.length + 1) acc.1 acc.2 s).2.1,
             (lpDfs (g.nodes.length + 1) acc.1 acc.2 s).2.2)) (g₁, vis)).2)) := by
  intro ss
  induction ss with
  | nil =>
    intro _ g₁ vis hwf1 hn1 he1 hvs hvn hfin
    exact ⟨hwf1, hn1, he1, hvs, hvn, hfin, fun s hs => absurd hs (List.not_mem_nil s),
      fun x hx => hx⟩
  | cons s ss' ih =>
    intro hss g₁ vis hwf1 hn1 he1 hvs hvn hfin
    have hpre : LPPre topo (g.nodes.length + 1) g₁ vis [] s :=
      { wf := hwf1
        htopo := by rw [he1]; exact htopo
        hv := by rw [hn1]; exact hss s (List.mem_cons_self s ss')
        stack_vis := fun a ha => absurd ha (List.not_mem_nil a)
        stack_lt := fun a ha => absurd ha (List.not_mem_nil a)
        inv := fun u hu => Or.inr (hfin u hu)
        vis_sub := by
          intro u hu
          rw [hn1]
          exact hvs u hu
        vis_nodup := hvn
        fuel_ok := by rw [hn1]; omega }
    have post := lpDfs_spec topo (g.nodes.length + 1) g₁ vis [] s hpre
    rw [List.foldl_cons]
    have hres := ih (fun x hx => hss x (List.mem_cons_of_mem s hx))
      (lpDfs (g.nodes.length + 1) g₁ vis s).2.1 (lpDfs (g.nodes.length + 1) g₁ vis s).2.2
      post.wf_out (post.nodes_eq.trans hn1) (post.edges_eq.trans he1)
      (fun u hu => by
        have h1 := post.vis_sub u hu
        rw [hn1] at h1
        exact h1)
      post.vis_nodup
      (fun u hu => by
        rcases post.inv u hu with h | h
        · exact absurd h (List.not_mem_nil u)
        · exact h)
    refine ⟨hres.1, hres.2.1, hres.2.2.1, hres.2.2.2.1, hres.2.2.2.2.1,
      hres.2.2.2.2.2.1, ?_, ?_⟩
    · intro x hx
      rcases List.mem_cons.mp hx with h | h
      · exact h ▸ hres.2.2.2.2.2.2.2 s (post.v_mem)
      · exact hres.2.2.2.2.2.2.1 x h
    · intro x hx
      exact hres.2.2.2.2.2.2.2 x (post.vis_mono x hx)

theorem finished_cover (g₀ gF : Graph) (visF : List String) (topo : String → Nat)
    (hwf : WFGraph g₀) (htopo : ∀ e ∈ g₀.edges, topo e.v < topo e.w)
    (hedges : gF.edges = g₀.edges)
    (hsrc : ∀ s ∈ g₀.sources, s ∈ visF)
    (hfin : ∀ u ∈ visF, Finished gF visF u) :
    ∀ v ∈ g₀.nodes, v ∈ visF := by
  have key : ∀ n : Nat, ∀ v ∈ g₀.nodes, topo v = n → v ∈ visF := by
    intro n
    induction n using Nat.strong_induction_on with
    | _ n ihn =>
      intro v hv htv
      by_cases hsv : g₀.inEdges v = []
      · apply hsrc
        unfold Graph.sources
        rw [List.mem_filter]
        exact ⟨hv, by simp [hsv]⟩
      · obtain ⟨e, he⟩ : ∃ e, e ∈ g₀.inEdges v := by
          cases hc : g₀.inEdges v with
          | nil => exact absurd hc hsv
          | cons e t => exact ⟨e, List.mem_cons_self e t⟩
        have hef := List.mem_filter.mp he
        have hew : e.w = v := by simpa using hef.2
        have hevn : e.v ∈ g₀.nodes := (hwf.edges_mem e hef.1).1
        have hlt : topo e.v < n := by
          have h2 := htopo e hef.1
          rw [hew, htv] at h2
          exact h2
        have hvin : e.v ∈ visF := ihn (topo e.v) hlt e.v hevn rfl
        obtain ⟨_, _, hrest⟩ := hfin e.v hvin
        have heF : e ∈ gF.edges := by rw [hedges]; exact hef.1
        have hres := (hrest e heF rfl).1
        rw [hew] at hres
        exact hres
  exact fun v hv => key (topo v) v hv rfl

theorem longestPath_spec (topo : String → Nat) (g : Graph) (hwf : WFGraph g)
    (htopo : ∀ e ∈ g.edges, topo e.v < topo e.w) :
    (longestPath g).nodes = g.nodes ∧ (longestPath g).edges = g.edges ∧
    (∀ v ∈ g.nodes, ∃ r : Int, (longestPath g).rankOf v = some r) ∧
    (∀ e ∈ g.edges, ∃ rv rw' : Int, (longestPath g).rankOf e.v = some rv ∧
       (longestPath g).rankOf e.w = some rw' ∧ rv ≤ rw' - e.minlen) := by
  have hss : ∀ s ∈ g.sources, s ∈ g.nodes := by
    intro s hs
    exact (List.mem_filter.mp hs).1
  have hres := lpSources_spec topo g hwf htopo g.sources hss g []
    hwf rfl rfl (fun u hu => absurd hu (List.not_mem_nil u)) List.nodup_nil
    (fun u hu => absurd hu (List.not_mem_nil u))
  obtain ⟨hwfF, hnF, heF, hvsF, hvnF, hfinF, hsrcF, -⟩ := hres
  have hcover := finished_cover g
    ((g.sources.foldl (fun (acc : Graph × List String) s =>
        ((lpDfs (g.nodes.length + 1) acc.1 acc.2 s).2.1,
         (lpDfs (g.nodes.length + 1) acc.1 acc.2 s).2.2)) (g, []))).1
    ((g.sources.foldl (fun (acc : Graph × List String) s =>
        ((lpDfs (g.nodes.length + 1) acc.1 acc.2 s).2.1,
         (lpDfs (g.nodes.length + 1) acc.1 acc.2 s).2.2)) (g, []))).2
    topo hwf htopo heF hsrcF hfinF
  have hlp : longestPath g = ((g.sources.foldl (fun (acc : Graph × List String) s =>
      ((lpDfs (g.nodes.length + 1) acc.1 acc.2 s).2.1,
       (lpDfs (g.nodes.length + 1) acc.1 acc.2 s).2.2)) (g, []))).1 := rfl
  refine ⟨by rw [hlp]; exact hnF, by rw [hlp]; exact heF, ?_, ?_⟩
  · intro v hv
    obtain ⟨r, hr, -⟩ := hfinF v (hcover v hv)
    exact ⟨r, by rw [hlp]; exact hr⟩
  · intro e he
    have hevn : e.v ∈ g.nodes := (hwf.edges_mem e he).1
    obtain ⟨rv, hrv, hrest⟩ := hfinF e.v (hcover e.v hevn)
    have heF' : e ∈ ((g.sources.foldl (fun (acc : Graph × List String) s =>
        ((lpDfs (g.nodes.length + 1) acc.1 acc.2 s).2.1,
         (lpDfs (g.nodes.length + 1) acc.1 acc.2 s).2.2)) (g, []))).1.edges := by
      rw [heF]
      exact he
    obtain ⟨-, rw', hrw, hle⟩ := hrest e heF' rfl
    exact ⟨rv, rw', by rw [hlp]; exact hrv, by rw [hlp]; exact hrw, hle⟩

theorem foldl_updateLabel_node (f : NodeLabel → NodeLabel) :
    ∀ (ns : List String) (g : Graph), ns.Nodup →
      ∀ u, ((ns.foldl (fun h v => h.updateLabel v f) g).node u)
        = if u ∈ ns then (g.node u).map f else g.node u := by
  intro ns
  induction ns with
  | nil =>
    intro g _ u
    simp
  | cons v ns' ih =>
    intro g hnd u
    have hnd' := List.nodup_cons.mp hnd
    rw [List.foldl_cons, ih (g.updateLabel v f) hnd'.2 u]
    by_cases hu : u = v
    · subst hu
      rw [if_neg hnd'.1, if_pos (List.mem_cons_self u ns'), node_updateLabel_self]
    · by_cases hu' : u ∈ ns'
      · rw [if_pos hu', if_pos (List.mem_cons_of_mem v hu'), node_updateLabel_other g v u hu]
      · rw [if_neg hu', if_neg (by
          intro hc
          rcases List.mem_cons.mp hc with h | h
          · exact hu h
          · exact hu' h), node_updateLabel_other g v u hu]

theorem foldl_updateLabel_nodes (f : NodeLabel → NodeLabel) :
    ∀ (ns : List String) (g : Graph),
      ((ns.foldl (fun h v => h.updateLabel v f) g).nodes) = g.nodes := by
  intro ns
  induction ns with
  | nil => intro g; rfl
  | cons v ns' ih =>
    intro g
    rw [List.foldl_cons, ih (g.updateLabel v f), updateLabel_nodes]

theorem foldl_updateLabel_edges (f : NodeLabel → NodeLabel) :
    ∀ (ns : List String) (g : Graph),
      ((ns.foldl (fun h v => h.updateLabel v f) g).edges) = g.edges := by
  intro ns
  induction ns with
  | nil => intro g; rfl
  | cons v ns' ih =>
    intro g
    rw [List.foldl_cons, ih (g.updateLabel v f), updateLabel_edges]

theorem normalizeRanks_spec (g : Graph) (hnd : g.nodes.Nodup)
    (hr : ∀ v ∈ g.nodes, ∃ r : Int, g.rankOf v = some r) (hne : g.nodes ≠ []) :
    (normalizeRanks g).nodes = g.nodes ∧ (normalizeRanks g).edges = g.edges ∧
    ∃ m : Int, (∃ v ∈ g.nodes, g.rankOf v = some m) ∧
      (∀ v ∈ g.nodes, ∀ r : Int, g.rankOf v = some r → m ≤ r) ∧
      (∀ v ∈ g.nodes, ∀ r : Int, g.rankOf v = some r →
        (normalizeRanks g).rankOf v = some (r - m)) := by
  set fr : String → Int := fun v =>
    match g.rankOf v with
    | none => NUMBER_MAX_VALUE
    | some r => r with hfr
  obtain ⟨x, xs, hxxs⟩ : ∃ x xs, g.nodes.map fr = x :: xs := by
    cases hc : g.nodes.map fr with
    | nil =>
      rw [List.map_eq_nil_iff] at hc
      exact absurd hc hne
    | cons x xs => exact ⟨x, xs, rfl⟩
  obtain ⟨m, hm, hmmem, hmle⟩ := jsMin_cons_spec x xs
  have hmin : applyWithChunking jsMin (g.nodes.map fr) = some m := by
    rw [applyWithChunking_jsMin, hxxs, hm]
  have hnorm : normalizeRanks g = g.nodes.foldl (fun h v =>
      h.updateLabel v (fun l =>
        match l.rank with
        | some r => { l with rank := some (r - m) }
        | none => l)) g := by
    show (match applyWithChunking jsMin (g.nodes.map fr) with
      | none => g
      | some m' => g.nodes.foldl (fun h v =>
          h.updateLabel v (fun l =>
            match l.rank with
            | some r => { l with rank := some (r - m') }
            | none => l)) g) = _
    rw [hmin]
  rw [← hxxs] at hmmem hmle
  obtain ⟨v₀, hv₀, hfv₀⟩ := List.mem_map.mp hmmem
  obtain ⟨r₀, hr₀⟩ := hr v₀ hv₀
  have hm₀ : m = r₀ := by
    rw [← hfv₀, hfr]
    simp only [hr₀]
  refine ⟨by rw [hnorm, foldl_updateLabel_nodes], by rw [hnorm, foldl_updateLabel_edges],
    m, ⟨v₀, hv₀, hm₀ ▸ hr₀⟩, ?_, ?_⟩
  · intro v hv r hrv
    have hmem : fr v ∈ g.nodes.map fr := List.mem_map_of_mem fr hv
    have hle := hmle _ hmem
    have : fr v = r := by
      rw [hfr]
      simp only [hrv]
    rw [this] at hle
    exact hle
  · intro v hv r hrv
    obtain ⟨l, hl⟩ := Option.isSome_iff_exists.mp (show (g.node v).isSome by
      unfold Graph.rankOf at hrv
      cases hc : g.node v with
      | none => rw [hc] at hrv; exact absurd hrv (by simp)
      | some l => rfl)
    have hlrank : l.rank = some r := by
      unfold Graph.rankOf at hrv
      rw [hl] at hrv
      exact hrv
    rw [hnorm]
    unfold Graph.rankOf
    rw [foldl_updateLabel_node _ g.nodes g hnd v, if_pos hv, hl]
    show (match l.rank with
      | some r => { l with rank := some (r - m) }
      | none => l).rank = some (r - m)
    rw [hlrank]

theorem normalizeRanks_nil (g : Graph) (h : g.nodes = []) : normalizeRanks g = g := by
  unfold normalizeRanks
  rw [h]
  rfl

/-- Claim C3: for every directed acyclic graph (acyclicity witnessed by a
topological numbering of the nodes) whose edges all carry a minlen, after
`longestPath` followed by `normalizeRanks` every node has an integer rank, all
ranks are non-negative with rank 0 attained whenever the graph is nonempty (so
the minimum rank among ranked nodes is exactly 0), and every edge has
non-negative slack. -/
theorem longestPath_normalizeRanks_slack (g : Graph) (topo : String → Nat)
    (hwf : WFGraph g) (htopo : ∀ e ∈ g.edges, topo e.v < topo e.w) :
    (∀ v ∈ (normalizeRanks (longestPath g)).nodes,
       ∃ r : Int, (normalizeRanks (longestPath g)).rankOf v = some r ∧ 0 ≤ r) ∧
    (g.nodes ≠ [] → ∃ v ∈ (normalizeRanks (longestPath g)).nodes,
       (normalizeRanks (longestPath g)).rankOf v = some 0) ∧
    (∀ e ∈ (normalizeRanks (longestPath g)).edges,
       ∃ s : Int, slack (normalizeRanks (longestPath g)) e = some s ∧ 0 ≤ s) := by
  obtain ⟨hnL, heL, hranks, hslacks⟩ := longestPath_spec topo g hwf htopo
  by_cases hne : g.nodes = []
  · have hLnil : (longestPath g).nodes = [] := by rw [hnL]; exact hne
    have hid : normalizeRanks (longestPath g) = longestPath g := normalizeRanks_nil _ hLnil
    rw [hid]
    refine ⟨?_, fun h => absurd hne h, ?_⟩
    · intro v hv
      rw [hLnil] at hv
      exact absurd hv (List.not_mem_nil v)
    · intro e he
      rw [heL] at he
      have h1 := (hwf.edges_mem e he).1
      rw [hne] at h1
      exact absurd h1 (List.not_mem_nil _)
  · have hLnd : (longestPath g).nodes.Nodup := by rw [hnL]; exact hwf.nodup
    have hLr : ∀ v ∈ (longestPath g).nodes, ∃ r : Int, (longestPath g).rankOf v = some r := by
      intro v hv
      rw [hnL] at hv
      exact hranks v hv
    have hLne : (longestPath g).nodes ≠ [] := by rw [hnL]; exact hne
    obtain ⟨hnN, heN, m, ⟨v₀, hv₀, hr₀⟩, hmle, hupd⟩ :=
      normalizeRanks_spec (longestPath g) hLnd hLr hLne
    refine ⟨?_, ?_, ?_⟩
    · intro v hv
      rw [hnN, hnL] at hv
      obtain ⟨r, hrv⟩ := hranks v hv
      refine ⟨r - m, hupd v (by rw [hnL]; exact hv) r hrv, ?_⟩
      have := hmle v (by rw [hnL]; exact hv) r hrv
      omega
    · intro _
      refine ⟨v₀, by rw [hnN]; exact hv₀, ?_⟩
      have h1 := hupd v₀ hv₀ m hr₀
      simpa using h1
    · intro e he
      rw [heN, heL] at he
      obtain ⟨rv, rw', hrv, hrw, hle⟩ := hslacks e he
      have hev : e.v ∈ (longestPath g).nodes := by rw [hnL]; exact (hwf.edges_mem e he).1
      have hew : e.w ∈ (longestPath g).nodes := by rw [hnL]; exact (hwf.edges_mem e he).2
      have h1 := hupd e.v hev rv hrv
      have h2 := hupd e.w hew rw' hrw
      refine ⟨(rw' - m) - (rv - m) - e.minlen, ?_, by omega⟩
      unfold slack
      rw [h1, h2]

/-- Concrete two-node DAG `a → b` for the C3 witness. -/
def gC3 : Graph :=
  { nodes := ["a", "b"]
    labels := [("a", {}), ("b", {})]
    edges := [{ v := "a", w := "b", weight := 1, minlen := 1 }] }

/-- Witness for the C3 theorem at a concrete DAG. -/
theorem longestPath_normalizeRanks_slack_witness :
    (∀ v ∈ (normalizeRanks (longestPath gC3)).nodes,
       ∃ r : Int, (normalizeRanks (longestPath gC3)).rankOf v = some r ∧ 0 ≤ r) ∧
    (gC3.nodes ≠ [] → ∃ v ∈ (normalizeRanks (longestPath gC3)).nodes,
       (normalizeRanks (longestPath gC3)).rankOf v = some 0) ∧
    (∀ e ∈ (normalizeRanks (longestPath gC3)).edges,
       ∃ s : Int, slack (normalizeRanks (longestPath gC3)) e = some s ∧ 0 ≤ s) :=
  longestPath_normalizeRanks_slack gC3 (fun v => if v = "a" then 0 else 1)
    ⟨by decide, by decide, by decide⟩ (by decide)

/-! ## removeEmptyRanks (src/lib/util.js) -/

/-- `layers[rank].push(v)` on a JS sparse array (holes modelled as `none`):
extend the array so the index exists, create the bucket on first use, append. -/
def sparsePush (ls : List (Option (List String))) (i : Nat) (v : String) :
    List (Option (List String)) :=
  match (ls ++ List.replicate (i + 1 - ls.length) none)[i]? with
  | some (some vs) => (ls ++ List.replicate (i + 1 - ls.length) none).set i (some (vs ++ [v]))
  | _ => (ls ++ List.replicate (i + 1 - ls.length) none).set i (some [v])

/-- src/lib/util.js `removeEmptyRanks`: offset ranks by the minimum, bucket
nodes by offset rank, then walk the buckets low→high (`Array.from` materialises
holes, so empty indices are visited): an empty index that is not a multiple of
`nodeRankFactor` decrements the running delta; every non-empty index adds the
current delta to its members' ranks.  The `getD 0` reads cover only inputs that
violate the preconditions (unranked nodes / missing `nodeRankFactor`), where
the JS arithmetic degenerates to NaN. -/
def removeEmptyRanks (g : Graph) : Graph :=
  let nodeRanks := g.nodes.map (fun v => ((g.node v).bind (fun l => l.rank)).getD 0)
  let offset := (applyWithChunking jsMin nodeRanks).getD 0
  let layers := g.nodes.foldl (fun ls v =>
      let rank := (((g.node v).bind (fun l => l.rank)).getD 0 - offset).toNat
      sparsePush ls rank v) []
  let nodeRankFactor := (g.graphLabel.nodeRankFactor).getD 0
  (layers.enum.foldl (fun (acc : Int × Graph) p =>
      match p.2 with
      | none => if (p.1 : Int) % nodeRankFactor ≠ 0 then (acc.1 - 1, acc.2) else acc
      | some vs => if acc.1 ≠ 0 then
          (acc.1, vs.foldl (fun h v => h.updateLabel v (fun l =>
            { l with rank := l.rank.map (fun r => r + acc.1) })) acc.2)
        else acc) ((0 : Int), g)).2

/-- Concrete graph for the C8 counterexample: ranks 0 and 4, `nodeRankFactor`
2. -/
def gC8 : Graph :=
  { nodes := ["x", "y"]
    labels := [("x", { rank := some 0 }), ("y", { rank := some 4 })]
    graphLabel := { nodeRankFactor := some 2 } }

/-- Claim C8 counterexample: with nodes at ranks 0 and 4 and
`nodeRankFactor = 2`, `removeEmptyRanks` moves the rank-4 node to rank 2,
leaving rank 1 — whose offset 1 from the minimum is not a multiple of 2 —
empty while a ranked node sits above it.  The relative order of non-empty
ranks is preserved, but the empty-rank part of the claim fails. -/
theorem removeEmptyRanks_counterexample :
    (removeEmptyRanks gC8).rankOf "x" = some 0 ∧
    (removeEmptyRanks gC8).rankOf "y" = some 2 ∧
    gC8.graphLabel.nodeRankFactor = some 2 ∧
    ((1 : Int) - 0) % 2 ≠ 0 ∧
    (∀ v ∈ (removeEmptyRanks gC8).nodes, (removeEmptyRanks gC8).rankOf v ≠ some 1) ∧
    (∃ v ∈ (removeEmptyRanks gC8).nodes,
      ∃ r : Int, (removeEmptyRanks gC8).rankOf v = some r ∧ 1 < r) := by
  decide

theorem sparsePush_length (ls : List (Option (List String))) (i : Nat) (v : String) :
    (sparsePush ls i v).length = max ls.length (i + 1) := by
  have hlen : (ls ++ List.replicate (i + 1 - ls.length) (none : Option (List String))).length
      = max ls.length (i + 1) := by
    simp only [List.length_append, List.length_replicate]
    omega
  unfold sparsePush
  split <;> rw [List.length_set] <;> exact hlen

theorem sparsePush_get_self (ls : List (Option (List String))) (i : Nat) (v : String) :
    (sparsePush ls i v)[i]? = some (some ((match ls[i]? with
      | some (some vs) => vs
      | _ => []) ++ [v])) := by
  have hi : i < (ls ++ List.replicate (i + 1 - ls.length) (none : Option (List String))).length := by
    simp only [List.length_append, List.length_replicate]
    omega
  unfold sparsePush
  by_cases h : i < ls.length
  · have hget : (ls ++ List.replicate (i + 1 - ls.length) (none : Option (List String)))[i]?
        = ls[i]? := List.getElem?_append_left h
    rw [hget]
    cases hc : ls[i]? with
    | none => exact List.getElem?_set_eq_of_lt _ hi
    | some entry =>
      cases entry with
      | none => exact List.getElem?_set_eq_of_lt _ hi
      | some vs => exact List.getElem?_set_eq_of_lt _ hi
  · have hget : (ls ++ List.replicate (i + 1 - ls.length) (none : Option (List String)))[i]?
        = some none := by
      rw [List.getElem?_append_right (le_of_not_lt h),
        List.getElem?_eq_getElem (by simp only [List.length_replicate]; omega),
        List.getElem_replicate]
    rw [hget]
    have hnone : ls[i]? = none := List.getElem?_eq_none (le_of_not_lt h)
    rw [hnone]
    exact List.getElem?_set_eq_of_lt _ hi

theorem sparsePush_get_other (ls : List (Option (List String))) (i : Nat) (v : String)
    (j : Nat) (hne : j ≠ i) :
    (sparsePush ls i v)[j]? =
      if j < ls.length then ls[j]?
      else if j < max ls.length (i + 1) then some none
      else none := by
  have hext : ∀ (a : Option (List String)),
      ((ls ++ List.replicate (i + 1 - ls.length) none).set i a)[j]? =
        if j < ls.length then ls[j]?
        else if j < max ls.length (i + 1) then some none
        else none := by
    intro a
    rw [List.getElem?_set_ne (Ne.symm hne)]
    by_cases h1 : j < ls.length
    · rw [if_pos h1, List.getElem?_append_left h1]
    · rw [if_neg h1]
      by_cases h2 : j < max ls.length (i + 1)
      · rw [if_pos h2, List.getElem?_append_right (le_of_not_lt h1),
          List.getElem?_eq_getElem (by simp only [List.length_replicate]; omega),
          List.getElem_replicate]
      · rw [if_neg h2]
        apply List.getElem?_eq_none
        simp only [List.length_append, List.length_replicate]
        omega
  unfold sparsePush
  split <;> exact hext _

/-- Invariant of the layer-bucketing fold of `removeEmptyRanks`: after
processing `ns`, index `i` of the sparse array holds exactly the processed
nodes whose offset rank is `i` (or a hole when there are none), and every
processed node's index is in range. -/
def LayersInv (idx : String → Nat) (ns : List String)
    (ls : List (Option (List String))) : Prop :=
  (∀ v ∈ ns, idx v < ls.length) ∧
  (∀ i, i < ls.length →
    ls[i]? = some (if ns.filter (fun v => idx v = i) = [] then none
                   else some (ns.filter (fun v => idx v = i))))

theorem layersInv_push (idx : String → Nat) (processed : List String) (v : String)
    (ls : List (Option (List String))) (h : LayersInv idx processed ls) :
    LayersInv idx (processed ++ [v]) (sparsePush ls (idx v) v) := by
  obtain ⟨h1, h2⟩ := h
  have hout : ∀ i, ¬ i < ls.length → processed.filter (fun u => idx u = i) = [] := by
    intro i hi
    rw [List.filter_eq_nil_iff]
    intro u hu
    simp only [decide_eq_true_eq]
    intro hc
    exact hi (hc ▸ h1 u hu)
  constructor
  · intro u hu
    rw [sparsePush_length]
    rcases List.mem_append.mp hu with h | h
    · exact lt_of_lt_of_le (h1 u h) (le_max_left _ _)
    · have : u = v := by simpa using h
      subst this
      exact lt_of_lt_of_le (Nat.lt_succ_self _) (le_max_right _ _)
  · intro i hi
    rw [sparsePush_length] at hi
    by_cases hj : i = idx v
    · subst hj
      rw [sparsePush_get_self]
      have hfilter : (processed ++ [v]).filter (fun u => idx u = idx v)
          = processed.filter (fun u => idx u = idx v) ++ [v] := by
        rw [List.filter_append]
        congr 1
        simp
      by_cases hlt : idx v < ls.length
      · rw [h2 (idx v) hlt]
        by_cases hfe : processed.filter (fun u => idx u = idx v) = []
        · rw [hfilter, hfe]
          simp
        · rw [hfilter]
          rw [if_neg hfe]
          have hne : processed.filter (fun u => idx u = idx v) ++ [v] ≠ [] := by
            simp
          rw [if_neg hne]
      · have hnone : ls[idx v]? = none := List.getElem?_eq_none (le_of_not_lt hlt)
        rw [hnone, hfilter, hout (idx v) hlt]
        simp
    · rw [sparsePush_get_other ls (idx v) v i hj]
      have hfilter : (processed ++ [v]).filter (fun u => idx u = i)
          = processed.filter (fun u => idx u = i) := by
        rw [List.filter_append]
        have : [v].filter (fun u => idx u = i) = [] := by
          simp only [List.filter_eq_nil_iff]
          intro u hu
          have : u = v := by simpa using hu
          subst this
          simp only [decide_eq_true_eq]
          exact fun hc => hj hc.symm
        rw [this, List.append_nil]
      rw [hfilter]
      by_cases hlt : i < ls.length
      · rw [if_pos hlt]
        exact h2 i hlt
      · rw [if_neg hlt, if_pos hi, hout i hlt]
        simp

theorem layersInv_fold (idx : String → Nat) :
    ∀ (rest processed : List String) (ls : List (Option (List String))),
      LayersInv idx processed ls →
      LayersInv idx (processed ++ rest)
        (rest.foldl (fun ls v => sparsePush ls (idx v) v) ls) := by
  intro rest
  induction rest with
  | nil =>
    intro processed ls h
    rw [List.append_nil]
    exact h
  | cons v rest' ih =>
    intro processed ls h
    rw [List.foldl_cons]
    have h1 := ih (processed ++ [v]) (sparsePush ls (idx v) v) (layersInv_push idx processed v ls h)
    rw [List.append_assoc] at h1
    exact h1

/-- Offset `j` above the minimum rank is an empty layer: no node sits at rank
`offset + j`. -/
def layerEmpty (g : Graph) (R : String → Int) (offset : Int) (j : Nat) : Prop :=
  ∀ v ∈ g.nodes, R v ≠ offset + (j : Int)

instance (g : Graph) (R : String → Int) (offset : Int) (j : Nat) :
    Decidable (layerEmpty g R offset j) := by
  unfold layerEmpty
  infer_instance

/-- How many empty, non-multiple-of-`f` offsets lie strictly below offset `i` —
the amount by which `removeEmptyRanks` shifts layer `i` down. -/
def collapsedBelow (g : Graph) (R : String → Int) (offset f : Int) (i : Nat) : Nat :=
  ((List.range i).filter (fun j =>
    decide (layerEmpty g R offset j) && decide ((j : Int) % f ≠ 0))).length

theorem collapsedBelow_succ (g : Graph) (R : String → Int) (offset f : Int) (i : Nat) :
    collapsedBelow g R offset f (i + 1) = collapsedBelow g R offset f i +
      (if layerEmpty g R offset i ∧ (i : Int) % f ≠ 0 then 1 else 0) := by
  unfold collapsedBelow
  rw [List.range_succ, List.filter_append, List.length_append]
  congr 1
  by_cases h : layerEmpty g R offset i ∧ (i : Int) % f ≠ 0
  · rw [if_pos h]
    have hp : (decide (layerEmpty g R offset i) && decide ((i : Int) % f ≠ 0)) = true := by
      rw [decide_eq_true h.1, decide_eq_true h.2]
      rfl
    simp only [List.filter_cons, hp, if_true, List.filter_nil, List.length_cons,
      List.length_nil]
  · rw [if_neg h]
    have hp : (decide (layerEmpty g R offset i) && decide ((i : Int) % f ≠ 0)) = false := by
      rcases not_and_or.mp h with h1 | h1
      · rw [decide_eq_false h1]
        rfl
      · rw [decide_eq_false h1, Bool.and_false]
    simp only [List.filter_cons, hp, Bool.false_eq_true, if_false, List.filter_nil,
      List.length_nil]

theorem layerEmpty_iff_filter (g : Graph) (R : String → Int) (offset : Int)
    (hminle : ∀ v ∈ g.nodes, offset ≤ R v) (j : Nat) :
    layerEmpty g R offset j ↔ g.nodes.filter (fun v => (R v - offset).toNat = j) = [] := by
  have hiff : ∀ v ∈ g.nodes, ((R v - offset).toNat = j ↔ R v = offset + (j : Int)) := by
    intro v hv
    constructor
    · intro h
      have h0 : (0 : Int) ≤ R v - offset := by
        have := hminle v hv
        omega
      have := Int.toNat_of_nonneg h0
      omega
    · intro h
      rw [h]
      omega
  unfold layerEmpty
  rw [List.filter_eq_nil_iff]
  constructor
  · intro h v hv
    simp only [decide_eq_true_eq]
    intro hc
    exact h v hv ((hiff v hv).mp hc)
  · intro h v hv hc
    have := h v hv
    simp only [decide_eq_true_eq] at this
    exact this ((hiff v hv).mpr hc)

theorem foldl_updateLabel_parents (f : NodeLabel → NodeLabel) :
    ∀ (ns : List String) (g : Graph),
      ((ns.foldl (fun h v => h.updateLabel v f) g).parents) = g.parents := by
  intro ns
  induction ns with
  | nil => intro g; rfl
  | cons v ns' ih =>
    intro g
    rw [List.foldl_cons, ih (g.updateLabel v f), updateLabel_parents]

theorem foldl_updateLabel_graphLabel (f : NodeLabel → NodeLabel) :
    ∀ (ns : List String) (g : Graph),
      ((ns.foldl (fun h v => h.updateLabel v f) g).graphLabel) = g.graphLabel := by
  intro ns
  induction ns with
  | nil => intro g; rfl
  | cons v ns' ih =>
    intro g
    rw [List.foldl_cons, ih (g.updateLabel v f), updateLabel_graphLabel]

/-- One step of the delta-walk of `removeEmptyRanks` (`Array.from(layers)`
visited with indices): empty non-multiple indices decrement the delta,
non-empty indices shift their members by the current delta. -/
def remStep (f : Int) : (Int × Graph) → (Nat × Option (List String)) → (Int × Graph) :=
  fun acc p =>
    match p.2 with
    | none => if (p.1 : Int) % f ≠ 0 then (acc.1 - 1, acc.2) else acc
    | some vs => if acc.1 ≠ 0 then
        (acc.1, vs.foldl (fun h v => h.updateLabel v (fun l =>
          { l with rank := l.rank.map (fun r => r + acc.1) })) acc.2)
      else acc

theorem rank_label_id (l : NodeLabel) :
    { l with rank := l.rank.map (fun r => r + (0 : Int)) } = l := by
  have h : l.rank.map (fun r => r + (0 : Int)) = l.rank := by
    cases l.rank <;> simp
  rw [h]

theorem remStep_none (f d : Int) (h : Graph) (k : Nat) :
    remStep f (d, h) (k, none) = if (k : Int) % f ≠ 0 then (d - 1, h) else (d, h) := rfl

theorem remStep_some (f d : Int) (h : Graph) (k : Nat) (vs : List String) :
    remStep f (d, h) (k, some vs) =
      if d ≠ 0 then
        (d, vs.foldl (fun h v => h.updateLabel v (fun l =>
          { l with rank := l.rank.map (fun r => r + d) })) h)
      else (d, h) := rfl

theorem remFold_spec (g : Graph) (R : String → Int) (offset f : Int)
    (hnd : g.nodes.Nodup)
    (hR : ∀ v ∈ g.nodes, g.rankOf v = some (R v))
    (hminle : ∀ v ∈ g.nodes, offset ≤ R v) :
    ∀ (ls : List (Option (List String))) (k : Nat) (h : Graph),
      (∀ i entry, ls[i]? = some entry →
        entry = (if g.nodes.filter (fun v => (R v - offset).toNat = k + i) = [] then none
                 else some (g.nodes.filter (fun v => (R v - offset).toNat = k + i)))) →
      (∀ v ∈ g.nodes, k ≤ (R v - offset).toNat → h.node v = g.node v) →
      h.nodes = g.nodes → h.edges = g.edges → h.parents = g.parents →
      h.graphLabel = g.graphLabel →
      ((∀ v ∈ g.nodes, k ≤ (R v - offset).toNat → (R v - offset).toNat < k + ls.length →
        ((List.enumFrom k ls).foldl (remStep f)
            ((-(collapsedBelow g R offset f k : Int)), h)).2.rankOf v
          = some (R v - collapsedBelow g R offset f ((R v - offset).toNat))) ∧
      (∀ v, (v ∉ g.nodes ∨ (R v - offset).toNat < k) →
        ((List.enumFrom k ls).foldl (remStep f)
            ((-(collapsedBelow g R offset f k : Int)), h)).2.node v = h.node v) ∧
      ((List.enumFrom k ls).foldl (remStep f)
          ((-(collapsedBelow g R offset f k : Int)), h)).2.nodes = g.nodes ∧
      ((List.enumFrom k ls).foldl (remStep f)
          ((-(collapsedBelow g R offset f k : Int)), h)).2.edges = g.edges ∧
      ((List.enumFrom k ls).foldl (remStep f)
          ((-(collapsedBelow g R offset f k : Int)), h)).2.parents = g.parents ∧
      ((List.enumFrom k ls).foldl (remStep f)
          ((-(collapsedBelow g R offset f k : Int)), h)).2.graphLabel = g.graphLabel) := by
  intro ls
  induction ls with
  | nil =>
    intro k h _ _ hnodes hedges hpar hgl
    refine ⟨?_, ?_, hnodes, hedges, hpar, hgl⟩
    · intro v _ h1 h2
      simp only [List.length_nil] at h2
      omega
    · intro v _
      rfl
  | cons entry rest ih =>
    intro k h hent hagree hnodes hedges hpar hgl
    have hent0 := hent 0 entry (by simp)
    cases entry with
    | none =>
      have hkemp : g.nodes.filter (fun v => (R v - offset).toNat = k) = [] := by
        by_cases hc : g.nodes.filter (fun v => (R v - offset).toNat = k + 0) = []
        · simpa using hc
        · rw [if_neg hc] at hent0
          exact absurd hent0 (by simp)
      have hemp : layerEmpty g R offset k := (layerEmpty_iff_filter g R offset hminle k).mpr hkemp
      have hstep : remStep f ((-(collapsedBelow g R offset f k : Int)), h) (k, none)
          = ((-(collapsedBelow g R offset f (k + 1) : Int)), h) := by
        rw [remStep_none, collapsedBelow_succ]
        by_cases hm : (k : Int) % f ≠ 0
        · rw [if_pos hm, if_pos ⟨hemp, hm⟩]
          refine congrArg (fun d => (d, h)) ?_
          push_cast
          ring
        · rw [if_neg hm, if_neg (fun hc => hm hc.2)]
          refine congrArg (fun d => (d, h)) ?_
          push_cast
          ring
      have hshift : ∀ i entry, rest[i]? = some entry →
          entry = (if g.nodes.filter (fun v => (R v - offset).toNat = (k + 1) + i) = [] then none
                   else some (g.nodes.filter (fun v => (R v - offset).toNat = (k + 1) + i))) := by
        intro i e₂ he₂
        have hsh := hent (i + 1) e₂ (by simpa using he₂)
        have harith : k + (i + 1) = (k + 1) + i := by omega
        rw [harith] at hsh
        exact hsh
      have hrec := ih (k + 1) h hshift
        (fun v hv hk => hagree v hv (by omega)) hnodes hedges hpar hgl
      have hunf : (List.enumFrom k (none :: rest)).foldl (remStep f)
            ((-(collapsedBelow g R offset f k : Int)), h)
          = (List.enumFrom (k + 1) rest).foldl (remStep f)
              ((-(collapsedBelow g R offset f (k + 1) : Int)), h) := by
        show (List.enumFrom (k + 1) rest).foldl (remStep f)
            (remStep f ((-(collapsedBelow g R offset f k : Int)), h) (k, none)) = _
        rw [hstep]
      rw [hunf]
      refine ⟨?_, ?_, hrec.2.2.1, hrec.2.2.2.1, hrec.2.2.2.2.1, hrec.2.2.2.2.2⟩
      · intro v hv h1 h2
        by_cases hk : (R v - offset).toNat = k
        · exfalso
          have hmem : v ∈ g.nodes.filter (fun v => (R v - offset).toNat = k) := by
            rw [List.mem_filter]
            exact ⟨hv, by simpa using hk⟩
          rw [hkemp] at hmem
          exact absurd hmem (List.not_mem_nil v)
        · exact hrec.1 v hv (by omega) (by simp only [List.length_cons] at h2 ⊢; omega)
      · intro v hv
        apply hrec.2.1 v
        rcases hv with h' | h'
        · exact Or.inl h'
        · exact Or.inr (by omega)
    | some vs =>
      have hkne : g.nodes.filter (fun v => (R v - offset).toNat = k) ≠ [] ∧
          vs = g.nodes.filter (fun v => (R v - offset).toNat = k) := by
        by_cases hc : g.nodes.filter (fun v => (R v - offset).toNat = k + 0) = []
        · rw [if_pos hc] at hent0
          exact absurd hent0 (by simp)
        · rw [if_neg hc] at hent0
          have hvs := Option.some.inj hent0
          constructor
          · simpa using hc
          · simpa using hvs
      have hnemp : ¬ layerEmpty g R offset k := by
        rw [layerEmpty_iff_filter g R offset hminle k]
        exact hkne.1
      have hceq : collapsedBelow g R offset f (k + 1) = collapsedBelow g R offset f k := by
        rw [collapsedBelow_succ, if_neg (fun hc => hnemp hc.1)]
        omega
      have hvsnd : vs.Nodup := hkne.2 ▸ (List.Nodup.filter _ hnd)
      have hvsmem : ∀ u, u ∈ vs ↔ (u ∈ g.nodes ∧ (R u - offset).toNat = k) := by
        intro u
        rw [hkne.2, List.mem_filter]
        simp
      have hchar : ∀ u,
          (remStep f ((-(collapsedBelow g R offset f k : Int)), h) (k, some vs)).2.node u
          = if u ∈ vs then (h.node u).map (fun l =>
              { l with rank := l.rank.map (fun r =>
                r + (-(collapsedBelow g R offset f k : Int))) })
            else h.node u := by
        intro u
        rw [remStep_some]
        by_cases hdz : (-(collapsedBelow g R offset f k : Int)) ≠ 0
        · rw [if_pos hdz]
          exact foldl_updateLabel_node _ vs h hvsnd u
        · rw [if_neg hdz]
          push_neg at hdz
          show h.node u = if u ∈ vs then (h.node u).map (fun l =>
              { l with rank := l.rank.map (fun r =>
                r + (-(collapsedBelow g R offset f k : Int))) })
            else h.node u
          rw [hdz]
          by_cases hu : u ∈ vs
          · rw [if_pos hu]
            cases hnu : h.node u with
            | none => rfl
            | some l =>
              show some l = some { l with rank := l.rank.map (fun r => r + (0 : Int)) }
              rw [rank_label_id]
          · rw [if_neg hu]
      have hstep_d : (remStep f ((-(collapsedBelow g R offset f k : Int)), h) (k, some vs)).1
          = (-(collapsedBelow g R offset f k : Int)) := by
        rw [remStep_some]
        by_cases hdz : (-(collapsedBelow g R offset f k : Int)) ≠ 0
        · rw [if_pos hdz]
        · rw [if_neg hdz]
      have hstep_struct :
          (remStep f ((-(collapsedBelow g R offset f k : Int)), h) (k, some vs)).2.nodes = g.nodes ∧
          (remStep f ((-(collapsedBelow g R offset f k : Int)), h) (k, some vs)).2.edges = g.edges ∧
          (remStep f ((-(collapsedBelow g R offset f k : Int)), h) (k, some vs)).2.parents = g.parents ∧
          (remStep f ((-(collapsedBelow g R offset f k : Int)), h) (k, some vs)).2.graphLabel
            = g.graphLabel := by
        rw [remStep_some]
        by_cases hdz : (-(collapsedBelow g R offset f k : Int)) ≠ 0
        · rw [if_pos hdz]
          refine ⟨?_, ?_, ?_, ?_⟩
          · show (vs.foldl _ h).nodes = g.nodes
            rw [foldl_updateLabel_nodes]
            exact hnodes
          · show (vs.foldl _ h).edges = g.edges
            rw [foldl_updateLabel_edges]
            exact hedges
          · show (vs.foldl _ h).parents = g.parents
            rw [foldl_updateLabel_parents]
            exact hpar
          · show (vs.foldl _ h).graphLabel = g.graphLabel
            rw [foldl_updateLabel_graphLabel]
            exact hgl
        · rw [if_neg hdz]
          exact ⟨hnodes, hedges, hpar, hgl⟩
      have hagree' : ∀ v ∈ g.nodes, k + 1 ≤ (R v - offset).toNat →
          (remStep f ((-(collapsedBelow g R offset f k : Int)), h) (k, some vs)).2.node v
            = g.node v := by
        intro v hv hk
        rw [hchar v, if_neg (fun hc => by
          have := (hvsmem v).mp hc
          omega)]
        exact hagree v hv (by omega)
      have hshift : ∀ i entry, rest[i]? = some entry →
          entry = (if g.nodes.filter (fun v => (R v - offset).toNat = (k + 1) + i) = [] then none
                   else some (g.nodes.filter (fun v => (R v - offset).toNat = (k + 1) + i))) := by
        intro i e₂ he₂
        have hsh := hent (i + 1) e₂ (by simpa using he₂)
        have harith : k + (i + 1) = (k + 1) + i := by omega
        rw [harith] at hsh
        exact hsh
      have hrec := ih (k + 1)
        (remStep f ((-(collapsedBelow g R offset f k : Int)), h) (k, some vs)).2
        hshift hagree' hstep_struct.1 hstep_struct.2.1 hstep_struct.2.2.1 hstep_struct.2.2.2
      have hunf : (List.enumFrom k (some vs :: rest)).foldl (remStep f)
            ((-(collapsedBelow g R offset f k : Int)), h)
          = (List.enumFrom (k + 1) rest).foldl (remStep f)
              ((-(collapsedBelow g R offset f (k + 1) : Int)),
               (remStep f ((-(collapsedBelow g R offset f k : Int)), h) (k, some vs)).2) := by
        show (List.enumFrom (k + 1) rest).foldl (remStep f)
            (remStep f ((-(collapsedBelow g R offset f k : Int)), h) (k, some vs)) = _
        have hpair : remStep f ((-(collapsedBelow g R offset f k : Int)), h) (k, some vs)
            = ((-(collapsedBelow g R offset f (k + 1) : Int)),
               (remStep f ((-(collapsedBelow g R offset f k : Int)), h) (k, some vs)).2) := by
          have h1 : (remStep f ((-(collapsedBelow g R offset f k : Int)), h) (k, some vs)).1
              = (-(collapsedBelow g R offset f (k + 1) : Int)) := by
            rw [hstep_d, hceq]
          rw [← h1]
        rw [hpair]
      rw [hunf]
      refine ⟨?_, ?_, hrec.2.2.1, hrec.2.2.2.1, hrec.2.2.2.2.1, hrec.2.2.2.2.2⟩
      · intro v hv h1 h2
        by_cases hk : (R v - offset).toNat = k
        · have hvvs : v ∈ vs := (hvsmem v).mpr ⟨hv, hk⟩
          have huntouched := hrec.2.1 v (Or.inr (by omega))
          have hnode := hchar v
          rw [if_pos hvvs] at hnode
          obtain ⟨l, hl, hlr⟩ : ∃ l, g.node v = some l ∧ l.rank = some (R v) := by
            have hrv := hR v hv
            unfold Graph.rankOf at hrv
            cases hc : g.node v with
            | none =>
              rw [hc] at hrv
              exact absurd hrv (by simp)
            | some l =>
              rw [hc] at hrv
              exact ⟨l, rfl, hrv⟩
          rw [hagree v hv (by omega), hl] at hnode
          unfold Graph.rankOf
          rw [huntouched, hnode]
          show (l.rank.map (fun r => r + (-(collapsedBelow g R offset f k : Int))))
              = some (R v - collapsedBelow g R offset f ((R v - offset).toNat))
          rw [hlr, hk]
          show some (R v + (-(collapsedBelow g R offset f k : Int)))
              = some (R v - (collapsedBelow g R offset f k : Int))
          rfl
        · exact hrec.1 v hv (by omega) (by simp only [List.length_cons] at h2 ⊢; omega)
      · intro v hv
        have h1 := hrec.2.1 v (by
          rcases hv with h' | h'
          · exact Or.inl h'
          · exact Or.inr (by omega))
        rw [h1, hchar v, if_neg (fun hc => by
          have hmem := (hvsmem v).mp hc
          rcases hv with h' | h'
          · exact h' hmem.1
          · omega)]

theorem collapsedBelow_le_self (g : Graph) (R : String → Int) (offset f : Int) (i : Nat) :
    collapsedBelow g R offset f i ≤ i := by
  unfold collapsedBelow
  calc ((List.range i).filter _).length ≤ (List.range i).length := List.length_filter_le _ _
  _ = i := List.length_range i

theorem collapsedBelow_le_add (g : Graph) (R : String → Int) (offset f : Int) :
    ∀ (d a : Nat), collapsedBelow g R offset f (a + d) ≤ collapsedBelow g R offset f a + d := by
  intro d
  induction d with
  | zero => intro a; rw [Nat.add_zero]; omega
  | succ d ih =>
    intro a
    have h1 := ih a
    have h2 := collapsedBelow_succ g R offset f (a + d)
    have harith : a + (d + 1) = (a + d) + 1 := by omega
    rw [harith, h2]
    split <;> omega

theorem collapsedBelow_mono (g : Graph) (R : String → Int) (offset f : Int) :
    ∀ (a b : Nat), a ≤ b → collapsedBelow g R offset f a ≤ collapsedBelow g R offset f b := by
  intro a b hab
  obtain ⟨d, rfl⟩ : ∃ d, b = a + d := ⟨b - a, by omega⟩
  clear hab
  induction d with
  | zero => rw [Nat.add_zero]
  | succ d ih =>
    have h2 := collapsedBelow_succ g R offset f (a + d)
    have harith : a + (d + 1) = (a + d) + 1 := by omega
    rw [harith, h2]
    split <;> omega

theorem foldl_congr_mem (f f' : β → α → β) :
    ∀ (l : List α) (b : β), (∀ a ∈ l, ∀ x, f x a = f' x a) → l.foldl f b = l.foldl f' b := by
  intro l
  induction l with
  | nil => intro b _; rfl
  | cons a t ih =>
    intro b h
    rw [List.foldl_cons, List.foldl_cons, h a (List.mem_cons_self a t) b]
    exact ih _ (fun x hx => h x (List.mem_cons_of_mem a hx))

theorem nu_reaches (g : Graph) (R : String → Int) (offset f : Int) :
    ∀ (m eN : Nat), eN ≤ m - collapsedBelow g R offset f m →
      ∃ j ≤ m, j - collapsedBelow g R offset f j = eN := by
  intro m
  induction m with
  | zero =>
    intro eN h
    exact ⟨0, le_refl 0, by omega⟩
  | succ m ih =>
    intro eN h
    by_cases hc : eN ≤ m - collapsedBelow g R offset f m
    · obtain ⟨j, hj, hje⟩ := ih eN hc
      exact ⟨j, by omega, hje⟩
    · have hsucc := collapsedBelow_succ g R offset f m
      have hle := collapsedBelow_le_self g R offset f m
      refine ⟨m + 1, le_refl _, ?_⟩
      split at hsucc <;> omega

/-- Full characterization of `removeEmptyRanks` on well-ranked graphs: every
node's rank drops by the number of empty, non-multiple-of-`nodeRankFactor`
offsets below its own offset. -/
theorem removeEmptyRanks_rank (g : Graph) (R : String → Int) (offset f : Int)
    (hnd : g.nodes.Nodup)
    (hR : ∀ v ∈ g.nodes, g.rankOf v = some (R v))
    (hf : g.graphLabel.nodeRankFactor = some f)
    (hmin : ∃ v ∈ g.nodes, R v = offset)
    (hminle : ∀ v ∈ g.nodes, offset ≤ R v) :
    (∀ v ∈ g.nodes, (removeEmptyRanks g).rankOf v
       = some (R v - (collapsedBelow g R offset f ((R v - offset).toNat) : Int))) ∧
    (removeEmptyRanks g).nodes = g.nodes ∧
    (removeEmptyRanks g).graphLabel = g.graphLabel := by
  have hread : ∀ v ∈ g.nodes, ((g.node v).bind (fun l => l.rank)).getD 0 = R v := by
    intro v hv
    have h := hR v hv
    unfold Graph.rankOf at h
    rw [h]
    rfl
  have hmap : g.nodes.map (fun u => ((g.node u).bind (fun l => l.rank)).getD 0)
      = g.nodes.map R := List.map_congr_left hread
  have hoffC : (applyWithChunking jsMin (g.nodes.map (fun u =>
      ((g.node u).bind (fun l => l.rank)).getD 0))).getD 0 = offset := by
    rw [hmap, applyWithChunking_jsMin]
    obtain ⟨v₀, hv₀, hv₀e⟩ := hmin
    obtain ⟨x, xs, hns⟩ : ∃ x xs, g.nodes = x :: xs := by
      cases hcase : g.nodes with
      | nil =>
        rw [hcase] at hv₀
        exact absurd hv₀ (List.not_mem_nil v₀)
      | cons a t => exact ⟨a, t, rfl⟩
    rw [hns, List.map_cons]
    obtain ⟨m, hm, hmem, hle⟩ := jsMin_cons_spec (R x) (List.map R xs)
    rw [hm]
    show m = offset
    have hmem' : m ∈ List.map R g.nodes := by
      rw [hns, List.map_cons]
      exact hmem
    obtain ⟨u, hu, hue⟩ := List.mem_map.mp hmem'
    have h1 : offset ≤ m := by
      rw [← hue]
      exact hminle u hu
    have h2 : m ≤ R v₀ := by
      apply hle
      rw [← List.map_cons, ← hns]
      exact List.mem_map_of_mem R hv₀
    omega
  have hlayers : g.nodes.foldl (fun ls v =>
        sparsePush ls ((((g.node v).bind (fun l => l.rank)).getD 0
          - (applyWithChunking jsMin (g.nodes.map (fun u =>
              ((g.node u).bind (fun l => l.rank)).getD 0))).getD 0).toNat) v) []
      = g.nodes.foldl (fun ls v => sparsePush ls ((R v - offset).toNat) v) [] := by
    apply foldl_congr_mem
    intro v hv x
    rw [hread v hv, hoffC]
  have hrem : removeEmptyRanks g
      = ((List.enumFrom 0 (g.nodes.foldl (fun ls v =>
          sparsePush ls ((R v - offset).toNat) v) [])).foldl (remStep f) ((0 : Int), g)).2 := by
    show ((List.enumFrom 0 (g.nodes.foldl (fun ls v =>
        sparsePush ls ((((g.node v).bind (fun l => l.rank)).getD 0
          - (applyWithChunking jsMin (g.nodes.map (fun u =>
              ((g.node u).bind (fun l => l.rank)).getD 0))).getD 0).toNat) v) [])).foldl
        (remStep ((g.graphLabel.nodeRankFactor).getD 0)) ((0 : Int), g)).2 = _
    rw [hlayers, hf]
    rfl
  have hinv : LayersInv (fun v => (R v - offset).toNat) g.nodes
      (g.nodes.foldl (fun ls v => sparsePush ls ((R v - offset).toNat) v) []) := by
    have h0 : LayersInv (fun v => (R v - offset).toNat) [] [] :=
      ⟨fun v hv => absurd hv (List.not_mem_nil v), fun i hi => by simp at hi⟩
    have h1 := layersInv_fold (fun v => (R v - offset).toNat) g.nodes [] [] h0
    rw [List.nil_append] at h1
    exact h1
  have hent : ∀ i entry,
      (g.nodes.foldl (fun ls v => sparsePush ls ((R v - offset).toNat) v) [])[i]? = some entry →
      entry = (if g.nodes.filter (fun v => (R v - offset).toNat = 0 + i) = [] then none
               else some (g.nodes.filter (fun v => (R v - offset).toNat = 0 + i))) := by
    intro i entry he
    have hi : i < (g.nodes.foldl (fun ls v => sparsePush ls ((R v - offset).toNat) v) []).length := by
      by_contra hc
      rw [List.getElem?_eq_none (le_of_not_lt hc)] at he
      exact absurd he (by simp)
    have h2 : (g.nodes.foldl (fun ls v => sparsePush ls ((R v - offset).toNat) v) [])[i]?
        = some (if g.nodes.filter (fun v => (R v - offset).toNat = i) = [] then none
                else some (g.nodes.filter (fun v => (R v - offset).toNat = i))) := hinv.2 i hi
    rw [he] at h2
    simp only [Nat.zero_add]
    exact Option.some.inj h2
  have hspec := remFold_spec g R offset f hnd hR hminle
      (g.nodes.foldl (fun ls v => sparsePush ls ((R v - offset).toNat) v) []) 0 g
      hent (fun v hv _ => rfl) rfl rfl rfl rfl
  have hcz : collapsedBelow g R offset f 0 = 0 := rfl
  rw [hcz] at hspec
  simp only [Nat.cast_zero, neg_zero] at hspec
  refine ⟨?_, ?_, ?_⟩
  · intro v hv
    have hb : (R v - offset).toNat
        < (g.nodes.foldl (fun ls v => sparsePush ls ((R v - offset).toNat) v) []).length :=
      hinv.1 v hv
    rw [hrem]
    exact hspec.1 v hv (Nat.zero_le _) (by omega)
  · rw [hrem]
    exact hspec.2.2.1
  · rw [hrem]
    exact hspec.2.2.2.2.2

theorem nu_fiber_max (g : Graph) (R : String → Int) (offset f : Int) :
    ∀ (iv eN : Nat), eN < iv - collapsedBelow g R offset f iv →
    ∃ b < iv, b - collapsedBelow g R offset f b = eN ∧
      ¬ ((b + 1) - collapsedBelow g R offset f (b + 1) = eN) := by
  intro iv
  induction iv with
  | zero =>
    intro eN h
    have := collapsedBelow_le_self g R offset f 0
    omega
  | succ iv ih =>
    intro eN h
    have hsucc := collapsedBelow_succ g R offset f iv
    have hle1 := collapsedBelow_le_self g R offset f iv
    have hle2 := collapsedBelow_le_self g R offset f (iv + 1)
    by_cases hc : eN < iv - collapsedBelow g R offset f iv
    · obtain ⟨b, hb, hfib, hnext⟩ := ih eN hc
      exact ⟨b, by omega, hfib, hnext⟩
    · refine ⟨iv, by omega, by split at hsucc <;> omega, by split at hsucc <;> omega⟩

/-- Claim C8 (amended): on a graph whose nodes all have ranks `R` with minimum
`offset` and whose label carries `nodeRankFactor = f`, `removeEmptyRanks`
preserves the relative order of node ranks exactly — strict order and
equality of rank values coincide before and after the call.  However,
contrary to the original claim, a rank at a non-multiple-of-`f` offset from
the minimum CAN be left empty below ranked nodes; what holds is: every rank
value `e ≥ offset` left empty while ranked nodes exist above it is the image
of an originally empty offset `j` that is a multiple of `f`, shifted down by
the number of collapsed (empty, non-multiple-of-`f`) offsets below `j`. -/
theorem removeEmptyRanks_order_and_gaps (g : Graph) (R : String → Int) (offset f : Int)
    (hnd : g.nodes.Nodup)
    (hR : ∀ v ∈ g.nodes, g.rankOf v = some (R v))
    (hf : g.graphLabel.nodeRankFactor = some f)
    (hmin : ∃ v ∈ g.nodes, R v = offset)
    (hminle : ∀ v ∈ g.nodes, offset ≤ R v) :
    (∀ u ∈ g.nodes, ∀ v ∈ g.nodes, ∀ ru rv : Int,
      (removeEmptyRanks g).rankOf u = some ru →
      (removeEmptyRanks g).rankOf v = some rv →
      ((R u < R v ↔ ru < rv) ∧ (R u = R v ↔ ru = rv))) ∧
    (∀ e : Int, offset ≤ e →
      (∀ v ∈ g.nodes, (removeEmptyRanks g).rankOf v ≠ some e) →
      (∃ v ∈ g.nodes, ∃ rv : Int, (removeEmptyRanks g).rankOf v = some rv ∧ e < rv) →
      ∃ j : Nat, (j : Int) % f = 0 ∧ layerEmpty g R offset j ∧
        e = offset + (j : Int) - (collapsedBelow g R offset f j : Int)) := by
  have hchar := (removeEmptyRanks_rank g R offset f hnd hR hf hmin hminle).1
  have hlt : ∀ u ∈ g.nodes, ∀ v ∈ g.nodes, R u < R v →
      R u - (collapsedBelow g R offset f ((R u - offset).toNat) : Int)
        < R v - (collapsedBelow g R offset f ((R v - offset).toNat) : Int) := by
    intro u hu v hv huv
    have hiu : (((R u - offset).toNat : Nat) : Int) = R u - offset :=
      Int.toNat_of_nonneg (by have := hminle u hu; omega)
    have hiv : (((R v - offset).toNat : Nat) : Int) = R v - offset :=
      Int.toNat_of_nonneg (by have := hminle v hv; omega)
    have hocc : ¬ layerEmpty g R offset ((R u - offset).toNat) := by
      intro hcon
      exact hcon u hu (by omega)
    have hsucc := collapsedBelow_succ g R offset f ((R u - offset).toNat)
    have hnocc : ¬ (layerEmpty g R offset ((R u - offset).toNat) ∧
        (((R u - offset).toNat : Nat) : Int) % f ≠ 0) := fun hc => hocc hc.1
    rw [if_neg hnocc] at hsucc
    have hstep := collapsedBelow_le_add g R offset f
      ((R v - offset).toNat - ((R u - offset).toNat + 1)) ((R u - offset).toNat + 1)
    have harith : (R u - offset).toNat + 1 + ((R v - offset).toNat - ((R u - offset).toNat + 1))
        = (R v - offset).toNat := by omega
    rw [harith] at hstep
    omega
  refine ⟨?_, ?_⟩
  · intro u hu v hv ru rv hru hrv
    have hcu := hchar u hu
    have hcv := hchar v hv
    rw [hru] at hcu
    rw [hrv] at hcv
    have hrueq : ru = R u - (collapsedBelow g R offset f ((R u - offset).toNat) : Int) :=
      Option.some.inj hcu
    have hrveq : rv = R v - (collapsedBelow g R offset f ((R v - offset).toNat) : Int) :=
      Option.some.inj hcv
    constructor
    · constructor
      · intro h
        rw [hrueq, hrveq]
        exact hlt u hu v hv h
      · intro h
        by_contra hcon
        push_neg at hcon
        rcases lt_or_eq_of_le hcon with h1 | h1
        · have := hlt v hv u hu h1
          omega
        · rw [← h1] at hrueq
          omega
    · constructor
      · intro h
        rw [h] at hrueq
        omega
      · intro h
        by_contra hcon
        rcases lt_trichotomy (R u) (R v) with h1 | h1 | h1
        · have := hlt u hu v hv h1
          omega
        · exact hcon h1
        · have := hlt v hv u hu h1
          omega
  · intro e he hemptyNew habove
    obtain ⟨v, hv, rv, hrv, herv⟩ := habove
    have hcv := hchar v hv
    rw [hrv] at hcv
    have hrveq : rv = R v - (collapsedBelow g R offset f ((R v - offset).toNat) : Int) :=
      Option.some.inj hcv
    have hiv : (((R v - offset).toNat : Nat) : Int) = R v - offset :=
      Int.toNat_of_nonneg (by have := hminle v hv; omega)
    have heN : (((e - offset).toNat : Nat) : Int) = e - offset :=
      Int.toNat_of_nonneg (by omega)
    have hciv := collapsedBelow_le_self g R offset f ((R v - offset).toNat)
    have htop : (e - offset).toNat
        < (R v - offset).toNat - collapsedBelow g R offset f ((R v - offset).toNat) := by
      omega
    obtain ⟨b, hbiv, hfib, hnext⟩ :=
      nu_fiber_max g R offset f ((R v - offset).toNat) ((e - offset).toNat) htop
    have hcb := collapsedBelow_le_self g R offset f b
    have hsucc := collapsedBelow_succ g R offset f b
    have hbemp : layerEmpty g R offset b := by
      by_contra hcon
      unfold layerEmpty at hcon
      push_neg at hcon
      obtain ⟨u, hu, hue⟩ := hcon
      have hcu := hchar u hu
      have hiub : (R u - offset).toNat = b := by omega
      rw [hiub] at hcu
      apply hemptyNew u hu
      rw [hcu]
      refine congrArg some ?_
      omega
    have hbmul : (b : Int) % f = 0 := by
      by_contra hcon
      have hcnd : layerEmpty g R offset b ∧ (b : Int) % f ≠ 0 := ⟨hbemp, hcon⟩
      rw [if_pos hcnd] at hsucc
      omega
    exact ⟨b, hbmul, hbemp, by omega⟩

/-- The rank assignment of `gC8` as a function, for instantiating the C8
theorem. -/
def RC8 : String → Int := fun v => if v = "y" then 4 else 0

theorem removeEmptyRanks_order_and_gaps_witness :
    (∀ u ∈ gC8.nodes, ∀ v ∈ gC8.nodes, ∀ ru rv : Int,
      (removeEmptyRanks gC8).rankOf u = some ru →
      (removeEmptyRanks gC8).rankOf v = some rv →
      ((RC8 u < RC8 v ↔ ru < rv) ∧ (RC8 u = RC8 v ↔ ru = rv))) ∧
    (∀ e : Int, 0 ≤ e →
      (∀ v ∈ gC8.nodes, (removeEmptyRanks gC8).rankOf v ≠ some e) →
      (∃ v ∈ gC8.nodes, ∃ rv : Int, (removeEmptyRanks gC8).rankOf v = some rv ∧ e < rv) →
      ∃ j : Nat, (j : Int) % 2 = 0 ∧ layerEmpty gC8 RC8 0 j ∧
        e = 0 + (j : Int) - (collapsedBelow gC8 RC8 0 2 j : Int)) :=
  removeEmptyRanks_order_and_gaps gC8 RC8 0 2
    (by decide) (by decide) (by decide) (by decide) (by decide)

/-! ## order (src/lib/order/index.js, with src/lib/order/build-layer-graph.js)

The orchestrator's collaborator modules (`init-order`, `cross-count`,
`sort-subgraph`, `add-subgraph-constraints`) are not part of the given
sources; they are taken as deterministic function parameters
(`OrderCollabs`).  Layer-graph node labels alias the main graph's labels
(graphlib `setDefaultNodeLabel(v => g.node(v))`), except for nodes whose
label was replaced by the `minRank` border override; order writes through an
aliased label hit the main graph, writes through an override stay inside the
layer graph.  The unbounded `for` loop of `order` is given explicit fuel;
`none` models non-termination within the fuel. -/

/-- src/lib/util.js `range(start, limit)` with the default step `1`:
`start, start+1, ...` while `i < limit`. -/
def rangeUp (start limit : ℚ) : List ℚ :=
  (List.range (Int.ceil (limit - start)).toNat).map (fun j => start + j)

/-- src/lib/util.js `range(start, limit, -1)`: `start, start-1, ...` while
`limit < i`. -/
def rangeDown (start limit : ℚ) : List ℚ :=
  (List.range (Int.ceil (start - limit)).toNat).map (fun j => start - j)

/-- The edge-selection parameter of `buildLayerGraph`: `"inEdges"` or
`"outEdges"`. -/
inductive EdgeRel where
  | inE : EdgeRel
  | outE : EdgeRel
  deriving DecidableEq

/-- `g[relationship](v)`. -/
def relEdges (g : Graph) (rel : EdgeRel) (v : String) : List GEdge :=
  match rel with
  | .inE => g.inEdges v
  | .outE => g.outEdges v

/-- The `nodesByRank` index of `buildLayerGraphs`, read at key `rank`: nodes
(in graph order) whose `rank` equals the key, plus nodes whose
`[minRank, maxRank]` span covers the key (skipping the node's own `rank`,
which was already added).  Map keys are the numbers `node.rank` and the
integers of the spans, so a non-integral key only matches via `node.rank`. -/
def nodesAtRank (g : Graph) (r : ℚ) : List String :=
  g.nodes.filter (fun v =>
    match g.node v with
    | none => false
    | some l =>
      decide (l.rank.map (fun k => ((k : ℚ))) = some r) ||
      (match l.minRank, l.maxRank with
       | some a, some b =>
         decide (r.den = 1) && decide ((a : ℚ) ≤ r) && decide (r ≤ (b : ℚ)) &&
           !decide (l.rank.map (fun k => ((k : ℚ))) = some r)
       | _, _ => false))

/-- `node.borderLeft[rank]` / `node.borderRight[rank]`: the border node id
stored at an integer rank key, if the (possibly non-integral) index matches. -/
def borderAt (bl : List (Int × String)) (r : ℚ) : Option String :=
  (bl.find? (fun p => (p.1 : ℚ) = r)).map (fun p => p.2)

/-- The label object `{borderLeft: ..., borderRight: ...}` that
`buildLayerGraph` substitutes for a `minRank` node's label; `order` is
written into it by later sweeps without reaching the main graph. -/
structure LGOverride where
  borderLeft : Option String := none
  borderRight : Option String := none
  order : Option Int := none
  deriving DecidableEq

/-- The output of `buildLayerGraph`: the root id (graph attribute `root`),
the movable nodes in insertion order, their parent assignment, the
aggregated `(u, v) → weight` edges, and the `minRank` label overrides. -/
structure LayerGraph where
  root : String
  movables : List String := []
  lgParents : List (String × String) := []
  lgEdges : List ((String × String) × Int) := []
  overrides : List (String × LGOverride) := []
  deriving DecidableEq

/-- `result.edge(u, v)` weight lookup on the aggregated edge list. -/
def lgEdgeWeight (es : List ((String × String) × Int)) (k : String × String) : Option Int :=
  (es.find? (fun p => p.1 = k)).map (fun p => p.2)

/-- `result.setEdge(u, v, {weight})`: replace the binding or append. -/
def lgSetEdge (k : String × String) (w : Int) :
    List ((String × String) × Int) → List ((String × String) × Int)
  | [] => [(k, w)]
  | (k', w') :: t => if k' = k then (k, w) :: t else (k', w') :: lgSetEdge k w t

/-- src/lib/order/build-layer-graph.js `createRootNode`: draw `_root`-prefixed
unique ids until one misses the graph.  The fuel bound `|nodes| + 2` is large
enough by the pigeonhole argument of `dummyLoop_some`; the fallback arm is
unreachable. -/
def createRootNode (g : Graph) (idCounter : Nat) : String × Nat :=
  let p := uniqueId idCounter "_root"
  match dummyLoop g "_root" (g.nodes.length + 2) p.1 p.2 with
  | some (v, c') => (v, c')
  | none => p

/-- src/lib/order/build-layer-graph.js `buildLayerGraph`: keep the nodes of
`nodesWithRank` whose rank (or `minRank..maxRank` span) matches `rank`,
parent them under their own parent or the fresh root, aggregate the
`relationship` edges incident on them, and replace the label of `minRank`
nodes by the border override. -/
def buildLayerGraph (g : Graph) (rank : ℚ) (rel : EdgeRel) (nodesWithRank : List String)
    (idCounter : Nat) : LayerGraph × Nat :=
  let p := createRootNode g idCounter
  let root := p.1
  (nodesWithRank.foldl (fun lg v =>
    match g.node v with
    | none => lg
    | some node =>
      if decide (node.rank.map (fun k => ((k : ℚ))) = some rank) ||
         (match node.minRank, node.maxRank with
          | some a, some b => decide ((a : ℚ) ≤ rank) && decide (rank ≤ (b : ℚ))
          | _, _ => false) then
        { lg with
          movables := if lg.movables.contains v then lg.movables else lg.movables ++ [v]
          lgParents := setAssoc v ((g.parentOf v).getD root) lg.lgParents
          lgEdges := (relEdges g rel v).foldl (fun es e =>
            let u := if e.v = v then e.w else e.v
            let weight := (lgEdgeWeight es (u, v)).getD 0
            lgSetEdge (u, v) (e.weight + weight) es) lg.lgEdges
          overrides := if node.minRank.isSome then
              setAssoc v { borderLeft := borderAt node.borderLeft rank
                           borderRight := borderAt node.borderRight rank } lg.overrides
            else lg.overrides }
      else lg) { root := root }, p.2)

/-- src/lib/order/index.js `buildLayerGraphs`: one layer graph per requested
rank, over the `nodesByRank` index; the id counter threads through the root
creations. -/
def buildLayerGraphs (g : Graph) (ranks : List ℚ) (rel : EdgeRel) (idCounter : Nat) :
    List LayerGraph × Nat :=
  ranks.foldl (fun acc r =>
    let p := buildLayerGraph g r rel (nodesAtRank g r) acc.2
    (acc.1 ++ [p.1], p.2)) ([], idCounter)

/-- The ranks of the downward layer-graph family:
`util.range(1, maxRank + 1)`; empty when the graph is (`-Infinity` when the
graph has no nodes). -/
def downRanks (g : Graph) : List ℚ :=
  match maxRank g with
  | none => []
  | some m => rangeUp 1 (m + 1)

/-- The ranks of the upward layer-graph family:
`util.range(maxRank - 1, -1, -1)`. -/
def upRanks (g : Graph) : List ℚ :=
  match maxRank g with
  | none => []
  | some m => rangeDown (m - 1) (-1)

/-- The collaborator modules of the orchestrator, taken as deterministic
functions: the initial-order seeder, the crossing counter, the subgraph
sorter (which reads the main graph through the aliased layer-graph labels)
and the constraint-graph updater, over an abstract constraint-graph type
`CG`. -/
structure OrderCollabs (CG : Type) where
  emptyCG : CG
  initOrder : Graph → List (List String)
  crossCount : Graph → List (List (Option String)) → Int
  sortSubgraph : Graph → LayerGraph → CG → Bool → List String
  addSubgraphConstraints : LayerGraph → CG → List String → CG

/-- `sorted.vs.forEach((v, i) => lg.node(v).order = i)`: a write through an
override label stays in the layer graph; a write through an aliased label
lands on the main graph's label (a no-op when the main graph has no label,
where the JS source would throw). -/
def applyOrderWrites (g : Graph) (lg : LayerGraph) (vs : List String) :
    Graph × LayerGraph :=
  vs.enum.foldl (fun acc p =>
    match lookupA p.2 acc.2.overrides with
    | some o =>
      (acc.1, { acc.2 with
        overrides := setAssoc p.2 { o with order := some (p.1 : Int) } acc.2.overrides })
    | none =>
      (acc.1.updateLabel p.2 (fun l => { l with order := some ((p.1 : Nat) : Int) }), acc.2))
    (g, lg)

/-- The per-layer-graph body of `sweepLayerGraphs`: sort, write the resulting
indices into the `order` attributes, extend the constraint graph; the
accumulator carries the main graph, the constraint graph and the processed
layer graphs. -/
def sweepOne (C : OrderCollabs CG) (biasRight : Bool)
    (acc : Graph × CG × List LayerGraph) (lg : LayerGraph) :
    Graph × CG × List LayerGraph :=
  let sorted := C.sortSubgraph acc.1 lg acc.2.1 biasRight
  let p := applyOrderWrites acc.1 lg sorted
  (p.1, C.addSubgraphConstraints p.2 acc.2.1 sorted, acc.2.2 ++ [p.2])

/-- src/lib/order/index.js `sweepLayerGraphs`: a fresh constraint graph, then
one sort-and-write pass per layer graph; returns the updated main graph and
the layer graphs with their override labels updated. -/
def sweepLayerGraphs (C : OrderCollabs CG) (lgs : List LayerGraph) (biasRight : Bool)
    (g : Graph) : Graph × List LayerGraph :=
  let r := lgs.foldl (sweepOne C biasRight) (g, C.emptyCG, ([] : List LayerGraph))
  (r.1, r.2.2)

/-- `layering[rank][node.order] = v` on a sparse row. -/
def setSparseCell (row : List (Option String)) (i : Nat) (v : String) :
    List (Option String) :=
  (row ++ List.replicate (i + 1 - row.length) none).set i (some v)

/-- src/lib/util.js `buildLayerMatrix`: one (sparse) row per rank
`0 .. maxRank`, each ranked node placed at its `order` index.  Writes with a
missing `order` or an out-of-range index are dropped, where the JS source
stores them as non-index properties invisible to iteration (or throws). -/
def buildLayerMatrix (g : Graph) : List (List (Option String)) :=
  let init := (match maxRank g with
    | none => ([] : List ℚ)
    | some m => rangeUp 0 (m + 1)).map (fun _ => ([] : List (Option String)))
  g.nodes.foldl (fun rows v =>
    match g.node v with
    | none => rows
    | some l =>
      match l.rank, l.order with
      | some r, some o =>
        if 0 ≤ r ∧ r.toNat < rows.length ∧ 0 ≤ o then
          rows.set r.toNat (setSparseCell (rows.getD r.toNat []) o.toNat v)
        else rows
      | _, _ => rows) init

/-- src/lib/order/index.js `assignOrder`: write each layer member's index into
its `order` attribute; the row-wise `forEach` skips the holes of a sparse
row. -/
def assignOrder (g : Graph) (layering : List (List (Option String))) : Graph :=
  layering.foldl (fun g layer =>
    layer.enum.foldl (fun g p =>
      match p.2 with
      | none => g
      | some v => g.updateLabel v (fun l => { l with order := some ((p.1 : Nat) : Int) })) g) g

/-- The loop state of `order`'s iteration: both layer-graph families (their
override labels evolve across sweeps), the main graph, `bestCC`
(`none` = `Number.POSITIVE_INFINITY`), the `best` layering snapshot, and the
counters `i` and `lastBest`. -/
structure LoopSt where
  down : List LayerGraph
  up : List LayerGraph
  g : Graph
  bestCC : Option Int
  best : Option (List (List (Option String)))
  i : Nat
  lastBest : Nat

/-- `cc < bestCC` with `bestCC` possibly `+Infinity`. -/
def ccLt (cc : Int) (bestCC : Option Int) : Bool :=
  match bestCC with
  | none => true
  | some b => decide (cc < b)

/-- One iteration of `order`'s `for` loop: sweep the family selected by
`i % 2` with the `i % 4 >= 2` bias, rebuild the layer matrix, measure the
crossings, and update `best`/`bestCC`/`lastBest` (the `++lastBest` of the
loop header is folded in, so an improving iteration leaves `lastBest = 1`). -/
def orderStep (C : OrderCollabs CG) (st : LoopSt) : LoopSt :=
  let p := sweepLayerGraphs C (if st.i % 2 = 1 then st.down else st.up)
    (decide (st.i % 4 ≥ 2)) st.g
  let layering := buildLayerMatrix p.1
  let cc := C.crossCount p.1 layering
  let improved := ccLt cc st.bestCC
  { down := if st.i % 2 = 1 then p.2 else st.down
    up := if st.i % 2 = 1 then st.up else p.2
    g := p.1
    bestCC := if improved then some cc else st.bestCC
    best := if improved then some layering else st.best
    i := st.i + 1
    lastBest := if improved then 1 else st.lastBest + 1 }

/-- The `for (;; lastBest < 4;)` loop with explicit fuel; `none` models
running out of fuel. -/
def orderLoop (C : OrderCollabs CG) : Nat → LoopSt → Option LoopSt
  | 0, _ => none
  | fuel + 1, st => if st.lastBest < 4 then orderLoop C fuel (orderStep C st) else some st

/-- The state of `order` just before its loop: both families built (down
first, threading the id counter), the seed order assigned, `bestCC`
infinite, `best` undefined. -/
def orderInit (C : OrderCollabs CG) (g : Graph) (idCounter : Nat) : LoopSt :=
  let p1 := buildLayerGraphs g (downRanks g) .inE idCounter
  let p2 := buildLayerGraphs g (upRanks g) .outE p1.2
  let g1 := assignOrder g ((C.initOrder g).map (fun layer => layer.map some))
  { down := p1.1, up := p2.1, g := g1, bestCC := none, best := none, i := 0, lastBest := 0 }

/-- src/lib/order/index.js `order`, on the default path (no `customOrder`
strategy, `disableOptimalOrderHeuristic` unset — the two early-return
branches that all the formalised claims condition away): build both
layer-graph families, seed and assign the initial order, iterate, then
commit the best layering.  The unreachable `best = undefined` case is a
no-op commit. -/
def order (C : OrderCollabs CG) (g : Graph) (idCounter fuel : Nat) : Option Graph :=
  match orderLoop C fuel (orderInit C g idCounter) with
  | none => none
  | some st => some (assignOrder st.g (st.best.getD []))

/-- The family `order` passes to `sweepLayerGraphs` at the iteration the
state is about to run (`i % 2 ? downLayerGraphs : upLayerGraphs`). -/
def sweptFamily (st : LoopSt) : List LayerGraph :=
  if st.i % 2 = 1 then st.down else st.up

/-- The state after `k` iterations of the loop body. -/
def stIter (C : OrderCollabs CG) (g : Graph) (idCounter k : Nat) : LoopSt :=
  (orderStep C)^[k] (orderInit C g idCounter)

/-- Whether the iteration about to run from `st` improves on `bestCC` —
recomputed exactly as `orderStep` computes it. -/
def stepImproved (C : OrderCollabs CG) (st : LoopSt) : Bool :=
  let p := sweepLayerGraphs C (if st.i % 2 = 1 then st.down else st.up)
    (decide (st.i % 4 ≥ 2)) st.g
  ccLt (C.crossCount p.1 (buildLayerMatrix p.1)) st.bestCC

/-- The crossing count measured by the iteration about to run from `st`. -/
def stepCC (C : OrderCollabs CG) (st : LoopSt) : Int :=
  let p := sweepLayerGraphs C (if st.i % 2 = 1 then st.down else st.up)
    (decide (st.i % 4 ≥ 2)) st.g
  C.crossCount p.1 (buildLayerMatrix p.1)

/-- A layer graph with the `order` writes on its overrides erased: the part
of a layer graph that is stable across sweeps. -/
def stripLG (lg : LayerGraph) : LayerGraph :=
  { lg with overrides := lg.overrides.map (fun p => (p.1, { p.2 with order := none })) }

/-- Concrete graph for the order-loop counterexamples: two nodes at rank 0,
two at rank 1, no edges. -/
def gOrd : Graph :=
  { nodes := ["a", "b", "c", "d"]
    labels := [("a", { rank := some 0 }), ("b", { rank := some 0 }),
               ("c", { rank := some 1 }), ("d", { rank := some 1 })] }

/-- The layer matrix of `gOrd` under the seed order `a, b / c, d`. -/
def M0 : List (List (Option String)) := [[some "a", some "b"], [some "c", some "d"]]

/-- Deterministic collaborators for the counterexamples: the seeder yields
`a, b / c, d`, the counter charges `0` for the seed layout and `1` for any
other, the sorter reverses the movables, and the constraint graph is
trivial. -/
def COrd : OrderCollabs Unit :=
  { emptyCG := ()
    initOrder := fun _ => [["a", "b"], ["c", "d"]]
    crossCount := fun _ lay => if lay = M0 then 0 else 1
    sortSubgraph := fun _ lg _ _ => lg.movables.reverse
    addSubgraphConstraints := fun _ cg _ => cg }

/-- Claim C1 counterexample: on `gOrd` (maxRank 1), iteration index 0 is even,
yet the family passed to the sweep is the one built from
`range(maxRank-1, -1, -1) = [0]` with `outEdges` (movables `a, b`), not the
downward family built from `range(1, maxRank+1) = [1]` with `inEdges`
(movables `c, d`): the `i % 2 ? down : up` selection sweeps the upward family
on even indices. -/
theorem order_sweep_parity_counterexample :
    (orderInit COrd gOrd 0).i = 0 ∧
    downRanks gOrd = [(1 : ℚ)] ∧
    upRanks gOrd = [(0 : ℚ)] ∧
    sweptFamily (orderInit COrd gOrd 0)
      = (buildLayerGraphs gOrd (upRanks gOrd) EdgeRel.outE
          (buildLayerGraphs gOrd (downRanks gOrd) EdgeRel.inE 0).2).1 ∧
    sweptFamily (orderInit COrd gOrd 0)
      ≠ (buildLayerGraphs gOrd (downRanks gOrd) EdgeRel.inE 0).1 ∧
    (sweptFamily (orderInit COrd gOrd 0)).map (fun lg => lg.movables) = [["a", "b"]] ∧
    ((buildLayerGraphs gOrd (downRanks gOrd) EdgeRel.inE 0).1).map (fun lg => lg.movables)
      = [["c", "d"]] := by with_unfolding_all decide

/-- Claim C2 counterexample: the seed order of `gOrd` has crossing count 0,
but the committed order has crossing count 1 — the loop never measures the
seed's crossing count, only post-sweep layouts, and commits the best of
those. -/
theorem order_seed_cc_counterexample :
    COrd.crossCount (orderInit COrd gOrd 0).g
      (buildLayerMatrix (orderInit COrd gOrd 0).g) = 0 ∧
    (order COrd gOrd 0 10).map (fun gf => COrd.crossCount gf (buildLayerMatrix gf))
      = some 1 := by with_unfolding_all decide

/-- Claim C5 counterexample: on `gOrd` with the `COrd` collaborators the loop
stops after 4 iterations of which only the LAST THREE were non-improving
(iteration 0 improved on the infinite initial best); the improving iteration
itself is counted by the `++lastBest` of the loop header, so the loop never
waits for 4 consecutive non-improving iterations. -/
theorem order_stop_counterexample :
    (orderLoop COrd 10 (orderInit COrd gOrd 0)).map (fun st => (st.i, st.lastBest))
      = some (4, 4) ∧
    stepImproved COrd (stIter COrd gOrd 0 0) = true ∧
    stepImproved COrd (stIter COrd gOrd 0 1) = false ∧
    stepImproved COrd (stIter COrd gOrd 0 2) = false ∧
    stepImproved COrd (stIter COrd gOrd 0 3) = false := by with_unfolding_all decide

theorem orderStep_i (C : OrderCollabs CG) (st : LoopSt) : (orderStep C st).i = st.i + 1 := rfl

theorem orderStep_g (C : OrderCollabs CG) (st : LoopSt) :
    (orderStep C st).g = (sweepLayerGraphs C (if st.i % 2 = 1 then st.down else st.up)
      (decide (st.i % 4 ≥ 2)) st.g).1 := rfl

theorem orderStep_down (C : OrderCollabs CG) (st : LoopSt) :
    (orderStep C st).down = if st.i % 2 = 1 then
      (sweepLayerGraphs C (if st.i % 2 = 1 then st.down else st.up)
        (decide (st.i % 4 ≥ 2)) st.g).2
    else st.down := rfl

theorem orderStep_up (C : OrderCollabs CG) (st : LoopSt) :
    (orderStep C st).up = if st.i % 2 = 1 then st.up else
      (sweepLayerGraphs C (if st.i % 2 = 1 then st.down else st.up)
        (decide (st.i % 4 ≥ 2)) st.g).2 := rfl

theorem orderStep_bestCC (C : OrderCollabs CG) (st : LoopSt) :
    (orderStep C st).bestCC =
      if stepImproved C st then some (stepCC C st) else st.bestCC := rfl

theorem orderStep_lastBest (C : OrderCollabs CG) (st : LoopSt) :
    (orderStep C st).lastBest = if stepImproved C st then 1 else st.lastBest + 1 := rfl

theorem stepImproved_eq (C : OrderCollabs CG) (st : LoopSt) :
    stepImproved C st = ccLt (stepCC C st) st.bestCC := rfl

theorem stIter_succ (C : OrderCollabs CG) (g : Graph) (c₀ k : Nat) :
    stIter C g c₀ (k + 1) = orderStep C (stIter C g c₀ k) :=
  Function.iterate_succ_apply' (orderStep C) k (orderInit C g c₀)

theorem stIter_zero (C : OrderCollabs CG) (g : Graph) (c₀ : Nat) :
    stIter C g c₀ 0 = orderInit C g c₀ := rfl

theorem orderInit_down (C : OrderCollabs CG) (g : Graph) (c₀ : Nat) :
    (orderInit C g c₀).down = (buildLayerGraphs g (downRanks g) EdgeRel.inE c₀).1 := rfl

theorem orderInit_up (C : OrderCollabs CG) (g : Graph) (c₀ : Nat) :
    (orderInit C g c₀).up = (buildLayerGraphs g (upRanks g) EdgeRel.outE
      (buildLayerGraphs g (downRanks g) EdgeRel.inE c₀).2).1 := rfl

theorem foldl_proj_inv {α σ γ : Type} (f : σ → α → σ) (pr : σ → γ) (P : γ → Prop)
    (hstep : ∀ s a, P (pr s) → P (pr (f s a))) :
    ∀ (l : List α) (s : σ), P (pr s) → P (pr (l.foldl f s)) := by
  intro l
  induction l with
  | nil => intro s h; exact h
  | cons a t ih =>
    intro s h
    exact ih _ (hstep s a h)

theorem overrides_strip_setAssoc (v : String) (o : LGOverride) (x : Option Int) :
    ∀ m : List (String × LGOverride), lookupA v m = some o →
      (setAssoc v { o with order := x } m).map (fun p => (p.1, { p.2 with order := none }))
        = m.map (fun p => (p.1, { p.2 with order := none })) := by
  intro m
  induction m with
  | nil =>
    intro h
    exact absurd h (by simp [lookupA])
  | cons p t ih =>
    intro h
    obtain ⟨k', b⟩ := p
    rw [lookupA] at h
    rw [setAssoc]
    by_cases hk : k' = v
    · rw [if_pos hk] at h
      have hb := Option.some.inj h
      rw [if_pos hk, hk, hb]
      simp
    · rw [if_neg hk] at h
      rw [if_neg hk, List.map_cons, List.map_cons, ih h]

theorem stripLG_applyOrderWrites (g : Graph) (lg : LayerGraph) (vs : List String) :
    stripLG (applyOrderWrites g lg vs).2 = stripLG lg := by
  unfold applyOrderWrites
  refine foldl_proj_inv _ Prod.snd (fun lg' => stripLG lg' = stripLG lg) ?_ vs.enum (g, lg) rfl
  intro s a h
  rcases s with ⟨g', lg'⟩
  show stripLG (match lookupA a.2 lg'.overrides with
    | some o => (g', { lg' with overrides := setAssoc a.2 { o with order := some ((a.1 : Nat) : Int) } lg'.overrides })
    | none => (g'.updateLabel a.2 (fun l => { l with order := some ((a.1 : Nat) : Int) }), lg')).2 = stripLG lg
  cases hc : lookupA a.2 lg'.overrides with
  | none => exact h
  | some o =>
    show stripLG { lg' with overrides := setAssoc a.2 { o with order := some ((a.1 : Nat) : Int) } lg'.overrides } = stripLG lg
    rw [← h]
    unfold stripLG
    rw [overrides_strip_setAssoc a.2 o _ lg'.overrides hc]

theorem stripLG_sweep (C : OrderCollabs CG) (biasRight : Bool) :
    ∀ (lgs : List LayerGraph) (g : Graph) (cg : CG) (done : List LayerGraph),
      ((lgs.foldl (sweepOne C biasRight) (g, cg, done)).2.2).map stripLG
        = done.map stripLG ++ lgs.map stripLG := by
  intro lgs
  induction lgs with
  | nil =>
    intro g cg done
    rw [List.foldl_nil, List.map_nil, List.append_nil]
  | cons lg t ih =>
    intro g cg done
    rw [List.foldl_cons]
    show ((t.foldl (sweepOne C biasRight) (sweepOne C biasRight (g, cg, done) lg)).2.2).map stripLG = _
    have hone : sweepOne C biasRight (g, cg, done) lg =
        ((applyOrderWrites g lg (C.sortSubgraph g lg cg biasRight)).1,
         C.addSubgraphConstraints (applyOrderWrites g lg (C.sortSubgraph g lg cg biasRight)).2
           cg (C.sortSubgraph g lg cg biasRight),
         done ++ [(applyOrderWrites g lg (C.sortSubgraph g lg cg biasRight)).2]) := rfl
    rw [hone, ih]
    simp only [List.map_append, List.map_cons, List.map_nil, List.append_assoc]
    rw [stripLG_applyOrderWrites]
    simp

theorem stripLG_sweepLayerGraphs (C : OrderCollabs CG) (lgs : List LayerGraph)
    (biasRight : Bool) (g : Graph) :
    (sweepLayerGraphs C lgs biasRight g).2.map stripLG = lgs.map stripLG := by
  show ((lgs.foldl (sweepOne C biasRight) (g, C.emptyCG, [])).2.2).map stripLG = _
  rw [stripLG_sweep]
  rfl

theorem stIter_invariants (C : OrderCollabs CG) (g : Graph) (c₀ : Nat) :
    ∀ k, (stIter C g c₀ k).i = k ∧
      (stIter C g c₀ k).down.map stripLG = (orderInit C g c₀).down.map stripLG ∧
      (stIter C g c₀ k).up.map stripLG = (orderInit C g c₀).up.map stripLG := by
  intro k
  induction k with
  | zero => exact ⟨rfl, rfl, rfl⟩
  | succ k ih =>
    obtain ⟨hi, hdown, hup⟩ := ih
    rw [stIter_succ]
    refine ⟨by rw [orderStep_i, hi], ?_, ?_⟩
    · rw [orderStep_down]
      by_cases hk : (stIter C g c₀ k).i % 2 = 1
      · rw [if_pos hk, if_pos hk, stripLG_sweepLayerGraphs]
        exact hdown
      · rw [if_neg hk]
        exact hdown
    · rw [orderStep_up]
      by_cases hk : (stIter C g c₀ k).i % 2 = 1
      · rw [if_pos hk]
        exact hup
      · rw [if_neg hk, if_neg hk, stripLG_sweepLayerGraphs]
        exact hup

/-- Claim C1 (amended): the orchestrator's loop sweeps the layer-graph
families in the parity OPPOSITE to the claimed one — `i % 2 ? down : up`
selects the downward family (ranks `1..maxRank`, `inEdges`) on ODD iteration
indices and the upward family (ranks `maxRank-1..0`, `outEdges`) on EVEN
ones.  The family lists held in the state stay, up to the `order` values
accumulated on their border overrides, the lists built before the loop. -/
theorem order_sweep_parity (C : OrderCollabs CG) (g : Graph) (c₀ k : Nat) :
    (stIter C g c₀ k).i = k ∧
    (sweptFamily (stIter C g c₀ k)).map stripLG
      = (if k % 2 = 1
         then (buildLayerGraphs g (downRanks g) EdgeRel.inE c₀).1
         else (buildLayerGraphs g (upRanks g) EdgeRel.outE
                (buildLayerGraphs g (downRanks g) EdgeRel.inE c₀).2).1).map stripLG := by
  obtain ⟨hi, hdown, hup⟩ := stIter_invariants C g c₀ k
  refine ⟨hi, ?_⟩
  unfold sweptFamily
  rw [hi]
  by_cases hk : k % 2 = 1
  · rw [if_pos hk, if_pos hk, hdown, orderInit_down]
  · rw [if_neg hk, if_neg hk, hup, orderInit_up]

theorem orderLoop_iterate (C : OrderCollabs CG) :
    ∀ (fuel : Nat) (st st' : LoopSt), orderLoop C fuel st = some st' →
      ∃ n, st' = (orderStep C)^[n] st ∧
        (∀ m, m < n → ((orderStep C)^[m] st).lastBest < 4) ∧
        ¬ st'.lastBest < 4 := by
  intro fuel
  induction fuel with
  | zero =>
    intro st st' h
    exact absurd h (by simp [orderLoop])
  | succ f ih =>
    intro st st' h
    rw [orderLoop] at h
    by_cases hlb : st.lastBest < 4
    · rw [if_pos hlb] at h
      obtain ⟨n, hst, hall, hexit⟩ := ih (orderStep C st) st' h
      refine ⟨n + 1, ?_, ?_, hexit⟩
      · rw [Function.iterate_succ_apply]
        exact hst
      · intro m hm
        cases m with
        | zero => exact hlb
        | succ m' =>
          rw [Function.iterate_succ_apply]
          exact hall m' (by omega)
    · rw [if_neg hlb] at h
      have heq := Option.some.inj h
      exact ⟨0, heq.symm, by intro m hm; omega, by rw [← heq]; exact hlb⟩

theorem stepImproved_of_none (C : OrderCollabs CG) (st : LoopSt) (h : st.bestCC = none) :
    stepImproved C st = true := by
  rw [stepImproved_eq, h]
  rfl

theorem orderStep_lastBest_pos (C : OrderCollabs CG) (st : LoopSt) :
    1 ≤ (orderStep C st).lastBest := by
  rw [orderStep_lastBest]
  split <;> omega

theorem stIter_lastBest_zero (C : OrderCollabs CG) (g : Graph) (c₀ : Nat) :
    ∀ k, (stIter C g c₀ k).lastBest = 0 → k = 0 := by
  intro k h
  cases k with
  | zero => rfl
  | succ k' =>
    rw [stIter_succ] at h
    have := orderStep_lastBest_pos C (stIter C g c₀ k')
    omega

theorem orderLoop_term_aux (C : OrderCollabs CG)
    (hcc : ∀ g' lay, 0 ≤ C.crossCount g' lay) :
    ∀ μ : Nat, ∀ st : LoopSt, ∀ b : Int, st.bestCC = some b → 0 ≤ b →
      b.toNat * 5 + (4 - st.lastBest) ≤ μ →
      ∃ fuel, (orderLoop C fuel st).isSome = true := by
  intro μ
  induction μ using Nat.strong_induction_on with
  | _ μ ih =>
    intro st b hb hb0 hμ
    by_cases hlb : st.lastBest < 4
    · have hcc0 : 0 ≤ stepCC C st := hcc _ _
      by_cases himp : stepImproved C st = true
      · have hlt : stepCC C st < b := by
          have h1 := stepImproved_eq C st
          rw [himp, hb] at h1
          exact of_decide_eq_true h1.symm
        have hnb : (orderStep C st).bestCC = some (stepCC C st) := by
          rw [orderStep_bestCC, if_pos himp]
        have hnl : (orderStep C st).lastBest = 1 := by
          rw [orderStep_lastBest, if_pos himp]
        have hm : (stepCC C st).toNat * 5 + (4 - (orderStep C st).lastBest) < μ := by
          rw [hnl]
          omega
        obtain ⟨f, hf⟩ := ih _ hm (orderStep C st) (stepCC C st) hnb hcc0 (le_refl _)
        refine ⟨f + 1, ?_⟩
        rw [orderLoop, if_pos hlb]
        exact hf
      · have himp' : stepImproved C st = false := Bool.eq_false_iff.mpr himp
        have hnb : (orderStep C st).bestCC = some b := by
          rw [orderStep_bestCC, himp']
          simp [hb]
        have hnl : (orderStep C st).lastBest = st.lastBest + 1 := by
          rw [orderStep_lastBest, himp']
          simp
        have hm : b.toNat * 5 + (4 - (orderStep C st).lastBest) < μ := by
          rw [hnl]
          omega
        obtain ⟨f, hf⟩ := ih _ hm (orderStep C st) b hnb hb0 (le_refl _)
        refine ⟨f + 1, ?_⟩
        rw [orderLoop, if_pos hlb]
        exact hf
    · refine ⟨1, ?_⟩
      show (if st.lastBest < 4 then orderLoop C 0 (orderStep C st) else some st).isSome = true
      rw [if_neg hlb]
      rfl

theorem orderLoop_init_terminates (C : OrderCollabs CG) (g : Graph) (c₀ : Nat)
    (hcc : ∀ g' lay, 0 ≤ C.crossCount g' lay) :
    ∃ fuel, (orderLoop C fuel (orderInit C g c₀)).isSome = true := by
  have h0 : (orderInit C g c₀).bestCC = none := rfl
  have himp := stepImproved_of_none C (orderInit C g c₀) h0
  have hcc0 : 0 ≤ stepCC C (orderInit C g c₀) := hcc _ _
  have hnb : (orderStep C (orderInit C g c₀)).bestCC
      = some (stepCC C (orderInit C g c₀)) := by
    rw [orderStep_bestCC, if_pos himp]
  obtain ⟨f, hf⟩ := orderLoop_term_aux C hcc
    ((stepCC C (orderInit C g c₀)).toNat * 5 + 4) (orderStep C (orderInit C g c₀))
    (stepCC C (orderInit C g c₀)) hnb hcc0 (by omega)
  refine ⟨f + 1, ?_⟩
  have hlb0 : (orderInit C g c₀).lastBest < 4 := by
    show (0 : Nat) < 4
    norm_num
  rw [orderLoop, if_pos hlb0]
  exact hf

theorem orderLoop_stop (C : OrderCollabs CG) (g : Graph) (c₀ fuel : Nat) (st' : LoopSt)
    (h : orderLoop C fuel (orderInit C g c₀) = some st') :
    ∃ N, 4 ≤ N ∧ st' = stIter C g c₀ N ∧ st'.lastBest = 4 ∧
      stepImproved C (stIter C g c₀ (N - 4)) = true ∧
      stepImproved C (stIter C g c₀ (N - 3)) = false ∧
      stepImproved C (stIter C g c₀ (N - 2)) = false ∧
      stepImproved C (stIter C g c₀ (N - 1)) = false := by
  obtain ⟨n, hst, hall, hexit⟩ := orderLoop_iterate C fuel (orderInit C g c₀) st' h
  have hstIter : ∀ m, (orderStep C)^[m] (orderInit C g c₀) = stIter C g c₀ m := fun m => rfl
  rw [hstIter] at hst
  have hall' : ∀ m, m < n → (stIter C g c₀ m).lastBest < 4 := by
    intro m hm
    rw [← hstIter m]
    exact hall m hm
  have hub : ∀ m, (stIter C g c₀ (m + 1)).lastBest =
      if stepImproved C (stIter C g c₀ m) = true then 1
      else (stIter C g c₀ m).lastBest + 1 := by
    intro m
    rw [stIter_succ, orderStep_lastBest]
  have hn1 : 1 ≤ n := by
    by_contra hc
    have hn0 : n = 0 := by omega
    rw [hn0] at hst
    rw [hst] at hexit
    exact hexit (by show (0 : Nat) < 4; norm_num)
  obtain ⟨m1, rfl⟩ : ∃ m1, n = m1 + 1 := ⟨n - 1, by omega⟩
  rw [hst] at hexit
  have e1 : stepImproved C (stIter C g c₀ m1) = false ∧
      (stIter C g c₀ m1).lastBest = 3 ∧ st'.lastBest = 4 := by
    have hu := hub m1
    by_cases hi : stepImproved C (stIter C g c₀ m1) = true
    · rw [if_pos hi] at hu
      rw [hu] at hexit
      exact absurd (by norm_num : (1 : Nat) < 4) hexit
    · rw [if_neg hi] at hu
      have hlbm1 := hall' m1 (by omega)
      have hst' : st'.lastBest = (stIter C g c₀ m1).lastBest + 1 := by rw [hst, hu]
      exact ⟨Bool.eq_false_iff.mpr hi, by omega, by omega⟩
  have hm1pos : 1 ≤ m1 := by
    by_contra hc
    have : m1 = 0 := by omega
    rw [this] at e1
    have : (stIter C g c₀ 0).lastBest = 0 := rfl
    omega
  obtain ⟨m2, rfl⟩ : ∃ m2, m1 = m2 + 1 := ⟨m1 - 1, by omega⟩
  have e2 : stepImproved C (stIter C g c₀ m2) = false ∧
      (stIter C g c₀ m2).lastBest = 2 := by
    have hu := hub m2
    by_cases hi : stepImproved C (stIter C g c₀ m2) = true
    · rw [if_pos hi] at hu
      omega
    · rw [if_neg hi] at hu
      exact ⟨Bool.eq_false_iff.mpr hi, by omega⟩
  have hm2pos : 1 ≤ m2 := by
    by_contra hc
    have : m2 = 0 := by omega
    rw [this] at e2
    have : (stIter C g c₀ 0).lastBest = 0 := rfl
    omega
  obtain ⟨m3, rfl⟩ : ∃ m3, m2 = m3 + 1 := ⟨m2 - 1, by omega⟩
  have e3 : stepImproved C (stIter C g c₀ m3) = false ∧
      (stIter C g c₀ m3).lastBest = 1 := by
    have hu := hub m3
    by_cases hi : stepImproved C (stIter C g c₀ m3) = true
    · rw [if_pos hi] at hu
      omega
    · rw [if_neg hi] at hu
      exact ⟨Bool.eq_false_iff.mpr hi, by omega⟩
  have hm3pos : 1 ≤ m3 := by
    by_contra hc
    have : m3 = 0 := by omega
    rw [this] at e3
    have : (stIter C g c₀ 0).lastBest = 0 := rfl
    omega
  obtain ⟨m4, rfl⟩ : ∃ m4, m3 = m4 + 1 := ⟨m3 - 1, by omega⟩
  have e4 : stepImproved C (stIter C g c₀ m4) = true := by
    have hu := hub m4
    by_cases hi : stepImproved C (stIter C g c₀ m4) = true
    · exact hi
    · rw [if_neg hi] at hu
      have hz : (stIter C g c₀ m4).lastBest = 0 := by omega
      have hm40 := stIter_lastBest_zero C g c₀ m4 hz
      rw [hm40] at hi
      exact absurd (stepImproved_of_none C (stIter C g c₀ 0) rfl) hi
  refine ⟨m4 + 4, by omega, ?_, e1.2.2, ?_, ?_, ?_, ?_⟩
  · have harith : m4 + 4 = m4 + 1 + 1 + 1 + 1 := by omega
    rw [harith]
    exact hst
  · have harith : m4 + 4 - 4 = m4 := by omega
    rw [harith]
    exact e4
  · have harith : m4 + 4 - 3 = m4 + 1 := by omega
    rw [harith]
    exact e3.1
  · have harith : m4 + 4 - 2 = m4 + 1 + 1 := by omega
    rw [harith]
    exact e2.1
  · have harith : m4 + 4 - 1 = m4 + 1 + 1 + 1 := by omega
    rw [harith]
    exact e1.1

/-- Claim C5 (amended): with a crossing counter returning non-negative
integers the loop terminates (some fuel suffices), and on exit the run has
the shape: the state is the `N`-th iterate with `lastBest = 4`, the
iteration 4 steps back improved the best crossing count, and the THREE
iterations after it did not — the loop stops after 3 (not 4) consecutive
non-improving iterations, because the improving iteration itself is counted
by the `++lastBest` of the loop header. -/
theorem order_loop_termination_stop (C : OrderCollabs CG) (g : Graph) (c₀ : Nat)
    (hcc : ∀ g' lay, 0 ≤ C.crossCount g' lay) :
    (∃ fuel, (orderLoop C fuel (orderInit C g c₀)).isSome = true) ∧
    (∀ fuel st', orderLoop C fuel (orderInit C g c₀) = some st' →
      ∃ N, 4 ≤ N ∧ st' = stIter C g c₀ N ∧ st'.lastBest = 4 ∧
        stepImproved C (stIter C g c₀ (N - 4)) = true ∧
        stepImproved C (stIter C g c₀ (N - 3)) = false ∧
        stepImproved C (stIter C g c₀ (N - 2)) = false ∧
        stepImproved C (stIter C g c₀ (N - 1)) = false) :=
  ⟨orderLoop_init_terminates C g c₀ hcc,
   fun fuel st' h => orderLoop_stop C g c₀ fuel st' h⟩

theorem order_loop_termination_stop_witness :
    (∃ fuel, (orderLoop COrd fuel (orderInit COrd gOrd 0)).isSome = true) ∧
    (∀ fuel st', orderLoop COrd fuel (orderInit COrd gOrd 0) = some st' →
      ∃ N, 4 ≤ N ∧ st' = stIter COrd gOrd 0 N ∧ st'.lastBest = 4 ∧
        stepImproved COrd (stIter COrd gOrd 0 (N - 4)) = true ∧
        stepImproved COrd (stIter COrd gOrd 0 (N - 3)) = false ∧
        stepImproved COrd (stIter COrd gOrd 0 (N - 2)) = false ∧
        stepImproved COrd (stIter COrd gOrd 0 (N - 1)) = false) :=
  order_loop_termination_stop COrd gOrd 0
    (by
      intro g' lay
      show (0 : Int) ≤ (if lay = M0 then 0 else 1)
      split <;> norm_num)

theorem bestCC_min_invariant (C : OrderCollabs CG) (g : Graph) (c₀ : Nat) :
    ∀ k, 1 ≤ k → ∃ b, (stIter C g c₀ k).bestCC = some b ∧
      (∀ j, j < k → b ≤ stepCC C (stIter C g c₀ j)) ∧
      (∃ j, j < k ∧ b = stepCC C (stIter C g c₀ j)) := by
  intro k
  induction k with
  | zero => intro h; omega
  | succ k ih =>
    intro _
    by_cases hk : 1 ≤ k
    · obtain ⟨b, hb, hub, hex⟩ := ih hk
      rw [stIter_succ, orderStep_bestCC]
      by_cases hi : stepImproved C (stIter C g c₀ k) = true
      · rw [if_pos hi]
        refine ⟨stepCC C (stIter C g c₀ k), rfl, ?_, ⟨k, by omega, rfl⟩⟩
        intro j hj
        by_cases hjk : j < k
        · have hlt : stepCC C (stIter C g c₀ k) < b := by
            have h1 := stepImproved_eq C (stIter C g c₀ k)
            rw [hi, hb] at h1
            exact of_decide_eq_true h1.symm
          have := hub j hjk
          omega
        · have hje : j = k := by omega
          rw [hje]
      · have hi' : stepImproved C (stIter C g c₀ k) = false := Bool.eq_false_iff.mpr hi
        rw [if_neg hi]
        refine ⟨b, hb, ?_, ?_⟩
        · intro j hj
          by_cases hjk : j < k
          · exact hub j hjk
          · have hje : j = k := by omega
            rw [hje]
            have h1 := stepImproved_eq C (stIter C g c₀ k)
            rw [hi', hb] at h1
            have h2 := of_decide_eq_false h1.symm
            omega
        · obtain ⟨j, hj, hje⟩ := hex
          exact ⟨j, by omega, hje⟩
    · have hk0 : k = 0 := by omega
      subst hk0
      rw [stIter_succ, orderStep_bestCC]
      have himp := stepImproved_of_none C (stIter C g c₀ 0) rfl
      rw [if_pos himp]
      refine ⟨stepCC C (stIter C g c₀ 0), rfl, ?_, ⟨0, by omega, rfl⟩⟩
      intro j hj
      have hje : j = 0 := by omega
      rw [hje]

/-- Claim C2 (amended): the crossing count of the committed order is the
minimum of the crossing counts MEASURED during the loop — each measured
after a sweep has already modified the order.  The seed order's crossing
count is never measured (the first measurement happens after the first
sweep), so the committed count carries no relation to the seed's count and
can exceed it. -/
theorem order_bestCC_min (C : OrderCollabs CG) (g : Graph) (c₀ fuel : Nat)
    (h : (orderLoop C fuel (orderInit C g c₀)).isSome = true) :
    ∃ N st', orderLoop C fuel (orderInit C g c₀) = some st' ∧
      order C g c₀ fuel = some (assignOrder st'.g (st'.best.getD [])) ∧
      st' = stIter C g c₀ N ∧ 1 ≤ N ∧
      ∃ b, st'.bestCC = some b ∧
        (∀ j, j < N → b ≤ stepCC C (stIter C g c₀ j)) ∧
        (∃ j, j < N ∧ b = stepCC C (stIter C g c₀ j)) := by
  cases hl : orderLoop C fuel (orderInit C g c₀) with
  | none =>
    rw [hl] at h
    exact absurd h (by simp)
  | some st' =>
    obtain ⟨n, hst, hall, hexit⟩ := orderLoop_iterate C fuel (orderInit C g c₀) st' hl
    have hstIter : ∀ m, (orderStep C)^[m] (orderInit C g c₀) = stIter C g c₀ m := fun m => rfl
    rw [hstIter] at hst
    have hn1 : 1 ≤ n := by
      by_contra hc
      have hn0 : n = 0 := by omega
      rw [hn0] at hst
      rw [hst] at hexit
      exact hexit (by show (0 : Nat) < 4; norm_num)
    obtain ⟨b, hb, hub, hex⟩ := bestCC_min_invariant C g c₀ n hn1
    rw [← hst] at hb
    have hord : order C g c₀ fuel = some (assignOrder st'.g (st'.best.getD [])) := by
      unfold order
      rw [hl]
    exact ⟨n, st', rfl, hord, hst, hn1, b, hb, hub, hex⟩

theorem order_bestCC_min_witness :
    ∃ N st', orderLoop COrd 10 (orderInit COrd gOrd 0) = some st' ∧
      order COrd gOrd 0 10 = some (assignOrder st'.g (st'.best.getD [])) ∧
      st' = stIter COrd gOrd 0 N ∧ 1 ≤ N ∧
      ∃ b, st'.bestCC = some b ∧
        (∀ j, j < N → b ≤ stepCC COrd (stIter COrd gOrd 0 j)) ∧
        (∃ j, j < N ∧ b = stepCC COrd (stIter COrd gOrd 0 j)) :=
  order_bestCC_min COrd gOrd 0 10 (by with_unfolding_all decide)

/-- A node label with its `order` attribute erased. -/
def clearOrder (l : NodeLabel) : NodeLabel := { l with order := none }

/-- `g'` differs from `g` at most in the `order` attributes of node labels:
nodes, edges (with their labels), parents and the graph label agree, and
every node label agrees after erasing `order`. -/
def OrderOnly (g g' : Graph) : Prop :=
  g'.nodes = g.nodes ∧ g'.edges = g.edges ∧ g'.parents = g.parents ∧
  g'.graphLabel = g.graphLabel ∧
  ∀ v, (g'.node v).map clearOrder = (g.node v).map clearOrder

theorem orderOnly_refl (g : Graph) : OrderOnly g g :=
  ⟨rfl, rfl, rfl, rfl, fun _ => rfl⟩

theorem orderOnly_trans {g₁ g₂ g₃ : Graph} (h1 : OrderOnly g₁ g₂) (h2 : OrderOnly g₂ g₃) :
    OrderOnly g₁ g₃ :=
  ⟨h2.1.trans h1.1, h2.2.1.trans h1.2.1, h2.2.2.1.trans h1.2.2.1,
   h2.2.2.2.1.trans h1.2.2.2.1, fun v => (h2.2.2.2.2 v).trans (h1.2.2.2.2 v)⟩

theorem orderOnly_updateLabel (g : Graph) (v : String) (f : NodeLabel → NodeLabel)
    (hf : ∀ l, clearOrder (f l) = clearOrder l) :
    OrderOnly g (g.updateLabel v f) := by
  unfold Graph.updateLabel
  cases hc : lookupA v g.labels with
  | none => exact orderOnly_refl g
  | some l =>
    refine ⟨rfl, rfl, rfl, rfl, ?_⟩
    intro u
    show (lookupA u (setAssoc v (f l) g.labels)).map clearOrder
      = (lookupA u g.labels).map clearOrder
    by_cases hu : u = v
    · rw [hu, lookupA_setAssoc_self, hc]
      show some (clearOrder (f l)) = some (clearOrder l)
      rw [hf]
    · rw [lookupA_setAssoc_ne v u hu]

theorem orderOnly_foldl {α : Type} (step : Graph → α → Graph)
    (hstep : ∀ h a, OrderOnly h (step h a)) :
    ∀ (l : List α) (g₀ h : Graph), OrderOnly g₀ h → OrderOnly g₀ (l.foldl step h) := by
  intro l
  induction l with
  | nil => intro g₀ h hh; exact hh
  | cons a t ih =>
    intro g₀ h hh
    exact ih g₀ (step h a) (orderOnly_trans hh (hstep h a))

theorem orderOnly_assignOrder (g : Graph) (layering : List (List (Option String))) :
    OrderOnly g (assignOrder g layering) := by
  unfold assignOrder
  refine orderOnly_foldl _ ?_ layering g g (orderOnly_refl g)
  intro h layer
  refine orderOnly_foldl _ ?_ layer.enum h h (orderOnly_refl h)
  intro h' p
  cases p.2 with
  | none => exact orderOnly_refl h'
  | some v => exact orderOnly_updateLabel h' v _ (fun l => rfl)

theorem orderOnly_applyOrderWrites (g₀ g : Graph) (lg : LayerGraph) (vs : List String)
    (h : OrderOnly g₀ g) : OrderOnly g₀ (applyOrderWrites g lg vs).1 := by
  unfold applyOrderWrites
  refine foldl_proj_inv _ Prod.fst (OrderOnly g₀) ?_ vs.enum (g, lg) h
  intro s a hs
  rcases s with ⟨g', lg'⟩
  show OrderOnly g₀ (match lookupA a.2 lg'.overrides with
    | some o => (g', { lg' with
        overrides := setAssoc a.2 { o with order := some ((a.1 : Nat) : Int) } lg'.overrides })
    | none => (g'.updateLabel a.2 (fun l => { l with order := some ((a.1 : Nat) : Int) }), lg')).1
  cases hc : lookupA a.2 lg'.overrides with
  | some o => exact hs
  | none => exact orderOnly_trans hs (orderOnly_updateLabel g' a.2 _ (fun l => rfl))

theorem orderOnly_sweepFold (C : OrderCollabs CG) (b : Bool) (g₀ : Graph)
    (lgs : List LayerGraph) (s : Graph × CG × List LayerGraph) (h : OrderOnly g₀ s.1) :
    OrderOnly g₀ ((lgs.foldl (sweepOne C b) s).1) := by
  refine foldl_proj_inv (sweepOne C b) Prod.fst (OrderOnly g₀) ?_ lgs s h
  intro s' lg hs
  show OrderOnly g₀ (sweepOne C b s' lg).1
  exact orderOnly_applyOrderWrites g₀ s'.1 lg _ hs

theorem orderOnly_sweepLayerGraphs (C : OrderCollabs CG) (lgs : List LayerGraph)
    (b : Bool) (g : Graph) : OrderOnly g (sweepLayerGraphs C lgs b g).1 := by
  show OrderOnly g ((lgs.foldl (sweepOne C b) (g, C.emptyCG, [])).1)
  exact orderOnly_sweepFold C b g lgs (g, C.emptyCG, []) (orderOnly_refl g)

theorem orderOnly_orderStep (C : OrderCollabs CG) (st : LoopSt) :
    OrderOnly st.g (orderStep C st).g := by
  rw [orderStep_g]
  exact orderOnly_sweepLayerGraphs C _ _ st.g

theorem orderOnly_orderLoop (C : OrderCollabs CG) :
    ∀ (fuel : Nat) (st st' : LoopSt), orderLoop C fuel st = some st' →
      OrderOnly st.g st'.g := by
  intro fuel
  induction fuel with
  | zero =>
    intro st st' h
    exact absurd h (by simp [orderLoop])
  | succ f ih =>
    intro st st' h
    rw [orderLoop] at h
    by_cases hlb : st.lastBest < 4
    · rw [if_pos hlb] at h
      exact orderOnly_trans (orderOnly_orderStep C st) (ih _ _ h)
    · rw [if_neg hlb] at h
      rw [← Option.some.inj h]
      exact orderOnly_refl st.g

/-- Claim C10: on the default path, the only mutation `order` performs on the
main graph is writing the `order` attribute of node labels — the node set,
all edges with their labels, the parent relation, the graph label, and every
other node-label attribute (in particular `rank`) are unchanged. -/
theorem order_frame (C : OrderCollabs CG) (g : Graph) (c₀ fuel : Nat)
    (h : (order C g c₀ fuel).isSome = true) :
    ∃ gf, order C g c₀ fuel = some gf ∧ gf.nodes = g.nodes ∧ gf.edges = g.edges ∧
      gf.parents = g.parents ∧ gf.graphLabel = g.graphLabel ∧
      ∀ v, (gf.node v).map clearOrder = (g.node v).map clearOrder := by
  cases hl : orderLoop C fuel (orderInit C g c₀) with
  | none =>
    have hn : order C g c₀ fuel = none := by
      unfold order
      rw [hl]
    rw [hn] at h
    exact absurd h (by simp)
  | some st' =>
    have hord : order C g c₀ fuel = some (assignOrder st'.g (st'.best.getD [])) := by
      unfold order
      rw [hl]
    have h1 : OrderOnly g (orderInit C g c₀).g := by
      show OrderOnly g (assignOrder g ((C.initOrder g).map (fun layer => layer.map some)))
      exact orderOnly_assignOrder g _
    have h2 := orderOnly_orderLoop C fuel (orderInit C g c₀) st' hl
    have h3 := orderOnly_assignOrder st'.g (st'.best.getD [])
    have hfin : OrderOnly g (assignOrder st'.g (st'.best.getD [])) :=
      orderOnly_trans (orderOnly_trans h1 h2) h3
    exact ⟨_, hord, hfin.1, hfin.2.1, hfin.2.2.1, hfin.2.2.2.1, hfin.2.2.2.2⟩

theorem order_frame_witness :
    ∃ gf, order COrd gOrd 0 10 = some gf ∧ gf.nodes = gOrd.nodes ∧
      gf.edges = gOrd.edges ∧ gf.parents = gOrd.parents ∧
      gf.graphLabel = gOrd.graphLabel ∧
      ∀ v, (gf.node v).map clearOrder = (gOrd.node v).map clearOrder :=
  order_frame COrd gOrd 0 10 (by with_unfolding_all decide)
